import Mathlib

/-!
Verification of the latch orchestration core.

The Python sources under src/latch/orchestration are shallowly embedded:

* Python dicts become insertion-ordered association lists (`alookup`, `aset`),
  matching dict iteration order and key-update semantics.
* Python sets that the code only ever extends element-by-element become
  duplicate-free lists in insertion order (`setAdd`); the properties proved
  below do not depend on the iteration order of these sets.
* Wall-clock timestamps are abstract strings supplied as parameters.
* Exceptions become `Option`/`Except` results; an operation that mutates
  state before raising returns the mutated state together with the error.
-/

namespace Latch

/-- Association-list lookup; first entry with the matching key wins,
which agrees with dict lookup because dict keys are unique. -/
def alookup (k : String) : List (String × β) → Option β
  | [] => none
  | (a, b) :: xs => if a = k then some b else alookup k xs

/-- Association-list update modelling Python dict assignment: an existing
key is updated in place (keeping its position), a new key is appended. -/
def aset (k : String) (v : β) : List (String × β) → List (String × β)
  | [] => [(k, v)]
  | (a, b) :: xs => if a = k then (k, v) :: xs else (a, b) :: aset k v xs

/-- Adding an element to a Python set, modelled on insertion-ordered lists. -/
def setAdd (xs : List String) (x : String) : List String :=
  if x ∈ xs then xs else xs ++ [x]

/-- `DAGNode` from dag.py: a task name with its dependency and dependent
name sets (modelled as duplicate-free lists). -/
structure DAGNode where
  task_name : String
  dependencies : List String
  dependents : List String
deriving DecidableEq, Repr

/-- `TaskDependencyDAG` from dag.py: `nodes` is a dict from task name to
node, modelled as an insertion-ordered association list. -/
structure TaskDependencyDAG where
  nodes : List (String × DAGNode)
deriving DecidableEq, Repr

/-- The node names of the graph, in dict iteration order. -/
def nodeNames (g : TaskDependencyDAG) : List String := g.nodes.map Prod.fst

/-- The dependency set of a node (`[]` when the node is absent, matching
`self.dag.nodes.get(name, None)` followed by a length-0 default). -/
def depsOf (g : TaskDependencyDAG) (n : String) : List String :=
  match alookup n g.nodes with
  | some nd => nd.dependencies
  | none => []

/-- The dependent set of a node (`[]` when the node is absent). -/
def dptsOf (g : TaskDependencyDAG) (n : String) : List String :=
  match alookup n g.nodes with
  | some nd => nd.dependents
  | none => []

/-- `TaskDependencyDAG.add_task`: idempotently create an empty node.
(The Python method also returns the node; only the graph effect matters here.) -/
def TaskDependencyDAG.add_task (g : TaskDependencyDAG) (name : String) : TaskDependencyDAG :=
  if (alookup name g.nodes).isSome then g
  else ⟨g.nodes ++ [(name, ⟨name, [], []⟩)]⟩

/-- Rewrite the node stored under `name` (helper for `add_dependency`;
Python mutates the node object in place). -/
def updateNode (g : TaskDependencyDAG) (name : String) (f : DAGNode → DAGNode) :
    TaskDependencyDAG :=
  ⟨g.nodes.map (fun p => if p.1 = name then (p.1, f p.2) else p)⟩

/-- `TaskDependencyDAG.add_dependency`: ensure both nodes exist, then add
`dependency_task` to the dependent's `dependencies` set and
`dependent_task` to the dependency's `dependents` set. -/
def TaskDependencyDAG.add_dependency (g : TaskDependencyDAG)
    (dependent_task dependency_task : String) : TaskDependencyDAG :=
  let g1 := (g.add_task dependent_task).add_task dependency_task
  let g2 := updateNode g1 dependent_task
    (fun nd => ⟨nd.task_name, setAdd nd.dependencies dependency_task, nd.dependents⟩)
  updateNode g2 dependency_task
    (fun nd => ⟨nd.task_name, nd.dependencies, setAdd nd.dependents dependent_task⟩)

/-- Current value of `in_degrees[n]` (`degOf` is only consulted on keys the
graph owns; the 0 default mirrors a lookup that Python would never miss). -/
def degOf (indeg : List (String × Int)) (n : String) : Int :=
  (alookup n indeg).getD 0

/-- `in_degrees[dependent] -= 1`. -/
def degDec (indeg : List (String × Int)) (n : String) : List (String × Int) :=
  indeg.map (fun p => if p.1 = n then (p.1, p.2 - 1) else p)

/-- Body of the `for dependent in self.nodes[current].dependents` loop:
decrement the dependent's in-degree and enqueue it if the new value is 0. -/
def kahnStep (acc : List (String × Int) × List String) (d : String) :
    List (String × Int) × List String :=
  let indeg := degDec acc.1 d
  if degOf indeg d = 0 then (indeg, acc.2 ++ [d]) else (indeg, acc.2)

/-- The `while queue:` loop of `topological_sort`, fuelled.  Each iteration
pops one queue element into the result, so at most one iteration per node
ever runs (see `kahnLoop_queue_empty`); the chosen fuel is never exhausted.
Returns (result, queue, in_degrees) — the loop's local variables. -/
def kahnLoop (g : TaskDependencyDAG) :
    Nat → List String → List (String × Int) → List String →
    List String × List String × List (String × Int)
  | 0, queue, indeg, result => (result, queue, indeg)
  | fuel + 1, queue, indeg, result =>
    match queue with
    | [] => (result, [], indeg)
    | current :: rest =>
      let s := (dptsOf g current).foldl kahnStep (indeg, rest)
      kahnLoop g fuel s.2 s.1 (result ++ [current])

/-- The initial `in_degrees` dict: each node mapped to the size of its
dependency set, in dict order. -/
def initInDegrees (g : TaskDependencyDAG) : List (String × Int) :=
  g.nodes.map (fun p => (p.1, (p.2.dependencies.length : Int)))

/-- `TaskDependencyDAG.topological_sort`: Kahn's algorithm; when a cycle
leaves nodes unvisited they are appended to the result with a warning. -/
def TaskDependencyDAG.topological_sort (g : TaskDependencyDAG) : List String :=
  if g.nodes = [] then []
  else
    let in_degrees := initInDegrees g
    let queue := (in_degrees.filter (fun p => decide (p.2 = 0))).map Prod.fst
    let result := (kahnLoop g (g.nodes.length + 1) queue in_degrees []).1
    if result.length ≠ g.nodes.length then
      result ++ (nodeNames g).filter (fun n => decide (n ∉ result))
    else result

/-- Well-formedness of the dependency graph — the invariant every graph
built through `add_task`/`add_dependency` (and hence through the registry)
maintains: node keys are unique and match the stored `task_name`s, the
dependency and dependent lists are duplicate-free sets over existing
nodes, and the two edge directions mirror each other. -/
def WF (g : TaskDependencyDAG) : Prop :=
  (nodeNames g).Nodup ∧
  (∀ p ∈ g.nodes, p.2.task_name = p.1) ∧
  (∀ p ∈ g.nodes, p.2.dependencies.Nodup ∧ p.2.dependents.Nodup) ∧
  (∀ p ∈ g.nodes, (∀ d ∈ p.2.dependencies, d ∈ nodeNames g) ∧
    (∀ d ∈ p.2.dependents, d ∈ nodeNames g)) ∧
  (∀ a ∈ g.nodes, ∀ b ∈ g.nodes, a.1 ∈ b.2.dependencies ↔ b.1 ∈ a.2.dependents)

/-- `a` is a direct dependency of `b` in the graph. -/
def depRel (g : TaskDependencyDAG) (a b : String) : Prop := a ∈ depsOf g b

/-- Cycle-freeness: the direct-dependency relation is well-founded, which
for a finite graph is exactly the absence of dependency cycles. -/
def Acyclic (g : TaskDependencyDAG) : Prop := WellFounded (depRel g)

/-- The in-degree dict after decrementing every key of `ds` once — the
cumulative effect of the dependent-processing for-loop on `in_degrees`. -/
def decAll (indeg : List (String × Int)) (ds : List String) : List (String × Int) :=
  ds.foldl degDec indeg

/-- Loop invariant of Kahn's algorithm as implemented by `kahnLoop`:
`in_degrees` counts each node's dependencies not yet in `result`, the
queue holds exactly the unprocessed nodes whose count reached zero, and
`result` lists processed nodes after all their dependencies. -/
structure KahnInv (g : TaskDependencyDAG) (queue : List String)
    (indeg : List (String × Int)) (result : List String) : Prop where
  keys_eq : indeg.map Prod.fst = nodeNames g
  res_nodup : result.Nodup
  q_nodup : queue.Nodup
  res_sub : ∀ x ∈ result, x ∈ nodeNames g
  q_sub : ∀ x ∈ queue, x ∈ nodeNames g
  disj : ∀ x ∈ queue, x ∉ result
  deg_count : ∀ n ∈ nodeNames g, degOf indeg n =
    (((depsOf g n).filter (fun d => decide (d ∉ result))).length : Int)
  q_zero : ∀ x ∈ queue, degOf indeg x = 0
  nonzero : ∀ n ∈ nodeNames g, n ∉ result → n ∉ queue → degOf indeg n ≠ 0
  before_deps : ∀ n ∈ result, ∀ d ∈ depsOf g n,
    d ∈ result ∧ result.indexOf d < result.indexOf n

/-- `Constraints` from constraints.py (pydantic model; the `ge=0` field
validators make the limits natural numbers). -/
structure Constraints where
  limit_outdegree : Option Nat
  allow_outgoing_to_names : List String
  limit_indegree : Option Nat
  allow_incoming_from_names : List String
deriving DecidableEq, Repr

/-- The identity-relevant fields of `Task` from tasks.py: `name` is the
unique hashed name, `base_name` the human-readable one.  The wrapped body
and the registration side effect are handled where they are used. -/
structure Task where
  name : String
  base_name : String
  constraints : Option Constraints
deriving DecidableEq, Repr

/-- `ConstraintViolationError` from constraints.py: carries the raw
message together with `constraint_type` and `task_name`. -/
structure ConstraintViolationError where
  message : String
  constraint_type : String
  task_name : String
deriving DecidableEq, Repr

/-- `str(e)` of a `ConstraintViolationError` (the string built by
`super().__init__`; Python wraps the names in single quotes, `\x27`). -/
def cveStr (e : ConstraintViolationError) : String :=
  "Constraint violation in task \x27" ++ e.task_name ++ "\x27 (" ++
    e.constraint_type ++ "): " ++ e.message

/-- The message of the outdegree-limit violation. -/
def outdegreeLimitMsg (caller_task callee_task : String) (deg lim : Nat) : String :=
  "Cannot add dependency " ++ caller_task ++ " -> " ++ callee_task ++
    ". Outdegree limit reached: " ++ toString deg ++ " >= " ++ toString lim

/-- The message of the outgoing-allowlist violation.  (Python renders the
allow-list as a set, whose element order is unspecified; the stored list
stands in for that rendering.) -/
def outgoingAllowMsg (caller_task callee_task base : String) (allow : List String) : String :=
  "Cannot add dependency " ++ caller_task ++ " -> " ++ callee_task ++
    ". Target task base name \x27" ++ base ++ "\x27 not in allowed outgoing task names " ++
    toString allow

/-- The message of the indegree-limit violation. -/
def indegreeLimitMsg (caller_task callee_task : String) (deg lim : Nat) : String :=
  "Cannot add dependency " ++ caller_task ++ " -> " ++ callee_task ++
    ". Indegree limit reached: " ++ toString deg ++ " >= " ++ toString lim

/-- The message of the incoming-allowlist violation (set rendering as above). -/
def incomingAllowMsg (caller_task callee_task base : String) (allow : List String) : String :=
  "Cannot add dependency " ++ caller_task ++ " -> " ++ callee_task ++
    ". Source task base name \x27" ++ base ++ "\x27 not in allowed incoming task names " ++
    toString allow

/-- Second half of `validate_outgoing_edge_constraints`: the allow-list
check on the caller's constraints, keyed by the callee's base name. -/
def outgoingAllowCheck (tasks : List (String × Task)) (caller_task callee_task : String)
    (cons : Constraints) : Option ConstraintViolationError :=
  let callee_base_name :=
    match alookup callee_task tasks with
    | some ci => ci.base_name
    | none => callee_task
  if cons.allow_outgoing_to_names ≠ [] ∧
      callee_base_name ∉ cons.allow_outgoing_to_names then
    some ⟨outgoingAllowMsg caller_task callee_task callee_base_name
            cons.allow_outgoing_to_names, "outgoing_edges", caller_task⟩
  else none

/-- `ConstraintValidator.validate_outgoing_edge_constraints`: outdegree
limit first (against the caller's current `dependents` size, before the
new edge), then the outgoing allow-list. -/
def validate_outgoing_edge_constraints (dag : TaskDependencyDAG)
    (tasks : List (String × Task)) (caller_task callee_task : String)
    (caller_instance : Task) : Option ConstraintViolationError :=
  match caller_instance.constraints with
  | none => none
  | some cons =>
    let current_outdegree := (dptsOf dag caller_task).length
    match cons.limit_outdegree with
    | some lim =>
      if current_outdegree ≥ lim then
        some ⟨outdegreeLimitMsg caller_task callee_task current_outdegree lim,
              "outgoing_edges", caller_task⟩
      else outgoingAllowCheck tasks caller_task callee_task cons
    | none => outgoingAllowCheck tasks caller_task callee_task cons

/-- Second half of `validate_incoming_edge_constraints`: the allow-list
check on the callee's constraints, keyed by the caller's base name.
(`caller_instance` is always a genuine `Task` on every call path, so the
`hasattr` fallback to the raw caller string never fires.) -/
def incomingAllowCheck (caller_task callee_task : String) (caller_instance : Task)
    (cons : Constraints) : Option ConstraintViolationError :=
  let caller_base_name := caller_instance.base_name
  if cons.allow_incoming_from_names ≠ [] ∧
      caller_base_name ∉ cons.allow_incoming_from_names then
    some ⟨incomingAllowMsg caller_task callee_task caller_base_name
            cons.allow_incoming_from_names, "incoming_edges", callee_task⟩
  else none

/-- `ConstraintValidator.validate_incoming_edge_constraints`: nothing to
check unless the callee is registered and constrained; then the indegree
limit (against the callee's current `dependencies` size), then the
incoming allow-list. -/
def validate_incoming_edge_constraints (dag : TaskDependencyDAG)
    (tasks : List (String × Task)) (caller_task callee_task : String)
    (caller_instance : Task) : Option ConstraintViolationError :=
  match alookup callee_task tasks with
  | none => none
  | some callee_instance =>
    match callee_instance.constraints with
    | none => none
    | some cons =>
      let current_indegree := (depsOf dag callee_task).length
      match cons.limit_indegree with
      | some lim =>
        if current_indegree ≥ lim then
          some ⟨indegreeLimitMsg caller_task callee_task current_indegree lim,
                "incoming_edges", callee_task⟩
        else incomingAllowCheck caller_task callee_task caller_instance cons
      | none => incomingAllowCheck caller_task callee_task caller_instance cons

/-- `ConstraintValidator.validate_dependency`: outgoing checks, then
incoming checks; the first violation wins. -/
def validate_dependency (dag : TaskDependencyDAG) (tasks : List (String × Task))
    (caller_task callee_task : String) (caller_instance : Task) :
    Option ConstraintViolationError :=
  match validate_outgoing_edge_constraints dag tasks caller_task callee_task caller_instance with
  | some e => some e
  | none => validate_incoming_edge_constraints dag tasks caller_task callee_task caller_instance

/-- The kind tag of an execution-history event (the `event` dict key). -/
inductive EventKind where
  | started
  | completed
  | failed
deriving DecidableEq, Repr

/-- One entry of `_execution_history`.  Python uses dicts whose optional
keys (`start_time`, `end_time`, `error`) appear only on terminal events;
those become `Option` fields that are `none` on `started` events. -/
structure Event where
  task : String
  kind : EventKind
  timestamp : String
  start_time : Option String
  end_time : Option String
  error : Option String
deriving DecidableEq, Repr

/-- `TaskRegistry` state: the task dict, the live execution-plan DAG, the
execution history and the active-task set.  (The metadata dict, the lock
and the lazily created helpers carry no behaviour the claims touch.) -/
structure TaskRegistry where
  tasks : List (String × Task)
  execution_plan : TaskDependencyDAG
  execution_history : List Event
  active_tasks : List String
deriving DecidableEq, Repr

/-- `TaskRegistry.register_task` (metadata dropped): store the task under
its unique name and add it to the DAG as an isolated node. -/
def register_task (reg : TaskRegistry) (t : Task) : TaskRegistry :=
  ⟨aset t.name t reg.tasks, reg.execution_plan.add_task t.name,
    reg.execution_history, reg.active_tasks⟩

/-- `TaskRegistry.get_task`. -/
def get_task (reg : TaskRegistry) (name : String) : Option Task :=
  alookup name reg.tasks

/-- `TaskRegistry.add_runtime_dependency`.  The `add_task` calls mutate the
registry's DAG before validation, so the (possibly extended) DAG survives
a rejection; on success the edge `callee depends on caller` is committed.
The violation handler only prints, so it is omitted. -/
def add_runtime_dependency (reg : TaskRegistry) (caller_task callee_task : String)
    (caller_instance : Task) : TaskRegistry × Option ConstraintViolationError :=
  let dag1 := reg.execution_plan.add_task caller_task
  let dag2 := if (alookup callee_task reg.tasks).isSome then dag1.add_task callee_task else dag1
  match validate_dependency dag2 reg.tasks caller_task callee_task caller_instance with
  | some e => (⟨reg.tasks, dag2, reg.execution_history, reg.active_tasks⟩, some e)
  | none =>
    (⟨reg.tasks, dag2.add_dependency callee_task caller_task,
      reg.execution_history, reg.active_tasks⟩, none)

/-- A `started` event. -/
def mkStarted (t ts : String) : Event := ⟨t, EventKind.started, ts, none, none, none⟩

/-- `TaskRegistry.mark_task_started` (timestamp passed in for the clock). -/
def mark_task_started (reg : TaskRegistry) (t ts : String) : TaskRegistry :=
  ⟨reg.tasks, reg.execution_plan,
    reg.execution_history ++ [mkStarted t ts], setAdd reg.active_tasks t⟩

/-- The reversed search of `mark_task_completed` / `mark_task_failed`:
find the most recent `started` event of the task, return its timestamp
and the history with that event removed. -/
def popLastStarted (name : String) : List Event → Option String × List Event
  | [] => (none, [])
  | e :: rest =>
    match popLastStarted name rest with
    | (some ts, rest2) => (some ts, e :: rest2)
    | (none, _) =>
      if e.task = name ∧ e.kind = EventKind.started then (some e.timestamp, rest)
      else (none, e :: rest)

/-- `TaskRegistry.mark_task_completed` as declared in registry.py: one
`task_name` parameter.  (tasks.py calls it with an extra argument; see
`task_call`.) -/
def mark_task_completed (reg : TaskRegistry) (t ts : String) : TaskRegistry :=
  let p := popLastStarted t reg.execution_history
  ⟨reg.tasks, reg.execution_plan,
    p.2 ++ [⟨t, EventKind.completed, ts, p.1, some ts, none⟩],
    reg.active_tasks.filter (fun a => decide (a ≠ t))⟩

/-- `TaskRegistry.mark_task_failed`: like completion, but records the
stringified error. -/
def mark_task_failed (reg : TaskRegistry) (t err ts : String) : TaskRegistry :=
  let p := popLastStarted t reg.execution_history
  ⟨reg.tasks, reg.execution_plan,
    p.2 ++ [⟨t, EventKind.failed, ts, p.1, some ts, some err⟩],
    reg.active_tasks.filter (fun a => decide (a ≠ t))⟩

/-- Python exceptions crossing `Task.__call__`. -/
inductive PyError where
  | constraintViolation (e : ConstraintViolationError)
  | typeError (msg : String)
  | runtimeError (msg : String) (cause : PyError)
  | genericError (msg : String)
deriving DecidableEq, Repr

/-- `str(e)` for the modelled exceptions. -/
def pyStr : PyError → String
  | PyError.constraintViolation e => cveStr e
  | PyError.typeError m => m
  | PyError.runtimeError m _ => m
  | PyError.genericError m => m

/-- The `TypeError` text Python raises for the two-argument call
`registry.mark_task_completed(self.name, result)` against the
one-parameter declaration in registry.py. -/
def markCompletedArityMsg : String :=
  "TaskRegistry.mark_task_completed() takes 2 positional arguments but 3 were given"

/-- Message of the generic task-failure wrapper. -/
def taskFailedMsg (name msg : String) : String :=
  "Task \x27" ++ name ++ "\x27 failed: " ++ msg

/-- `Task.__call__` from tasks.py.  The call-context resolution of
call_context.py inspects the live Python stack and cannot be embedded; its
sole observable effect — whether an active calling task was found — enters
as the `caller` parameter, and the body's behaviour as `body`.  Control
flow is the source's: edge creation (when a caller is present), then
`mark_task_started`, then the body; on success the source calls
`registry.mark_task_completed(self.name, result)`, which passes two
positional arguments to a method declaring only `task_name`, so Python
raises `TypeError` before any completion event is recorded, and the
`except` block marks the task failed and wraps the error; on a body
exception the task is marked failed and the error is re-raised, wrapped in
`RuntimeError` unless it is a `ConstraintViolationError`. -/
def task_call {V : Type} (reg : TaskRegistry) (t : Task) (caller : Option Task)
    (body : Except PyError V) (tStart tEnd : String) :
    TaskRegistry × Except PyError V :=
  let step1 : TaskRegistry × Option ConstraintViolationError :=
    match caller with
    | none => (reg, none)
    | some c => add_runtime_dependency reg c.name t.name c
  match step1 with
  | (reg1, some e) =>
    let reg2 := mark_task_failed reg1 t.name (cveStr e) tEnd
    (reg2, Except.error (PyError.constraintViolation e))
  | (reg1, none) =>
    let reg2 := mark_task_started reg1 t.name tStart
    match body with
    | Except.error e =>
      let reg3 := mark_task_failed reg2 t.name (pyStr e) tEnd
      match e with
      | PyError.constraintViolation _ => (reg3, Except.error e)
      | _ =>
        (reg3, Except.error (PyError.runtimeError (taskFailedMsg t.name (pyStr e)) e))
    | Except.ok _ =>
      let te := markCompletedArityMsg
      let reg3 := mark_task_failed reg2 t.name te tEnd
      (reg3, Except.error (PyError.runtimeError (taskFailedMsg t.name te)
        (PyError.typeError te)))

/-- The unique names of tasks with a `completed` event in the history
(recomputed inside `get_ready_tasks` exactly like the Python set
comprehension). -/
def completedTasks (history : List Event) : List String :=
  (history.filter (fun e => decide (e.kind = EventKind.completed))).map Event.task

/-- `TaskScheduler.get_ready_tasks`: a task with an empty dependency set
is always appended; otherwise it is appended when every dependency has
completed and the task itself has not. -/
def get_ready_tasks (dag : TaskDependencyDAG) (history : List Event) : List String :=
  (dag.nodes.filter (fun p =>
    if p.2.dependencies = [] then true
    else
      let completed := completedTasks history
      decide ((∀ d ∈ p.2.dependencies, d ∈ completed) ∧ p.1 ∉ completed))).map Prod.fst

/-- Outcome of one `execute_task_by_name` call, abstracting the task body:
a returned value, or a raised error which either is or is not a
`ConstraintViolationError` (the scheduler treats both the same way). -/
inductive ExecOutcome (V : Type) where
  | ok (v : V)
  | raises (isConstraintViolation : Bool)
deriving DecidableEq, Repr

/-- Whether an outcome is a normal return. -/
def ExecOutcome.isOk {V : Type} : ExecOutcome V → Bool
  | ExecOutcome.ok _ => true
  | ExecOutcome.raises _ => false

/-- The scheduler-visible state threaded through `execute_dag`: the
execution history, the `results` dict, the `executed_tasks` set, and the
chronological trace of attempted executions (the trace is a proof-side
journal of the loop's behaviour, not a Python variable). -/
structure SchedState (V : Type) where
  history : List Event
  results : List (String × V)
  executed : List String
  trace : List (String × ExecOutcome V)
deriving Repr

/-- The `for task_name in ready_tasks` body of `execute_dag`: execute each
task in turn; a success stores its result, marks it executed and (through
`Task.__call__`) leaves a terminal history event; any raise stops the
whole run (`True` = a failure was observed).  Task execution is abstracted
by the `outcome` map; its net history effect is the terminal event the
registry records for the task. -/
def execRound {V : Type} (outcome : String → ExecOutcome V) :
    List String → SchedState V → SchedState V × Bool
  | [], st => (st, false)
  | tn :: ts, st =>
    match outcome tn with
    | ExecOutcome.ok v =>
      execRound outcome ts
        ⟨st.history ++ [⟨tn, EventKind.completed, "", none, none, none⟩],
          aset tn v st.results, st.executed ++ [tn],
          st.trace ++ [(tn, ExecOutcome.ok v)]⟩
    | ExecOutcome.raises b =>
      (⟨st.history ++ [⟨tn, EventKind.failed, "", none, none, none⟩],
          st.results, st.executed,
          st.trace ++ [(tn, ExecOutcome.raises b)]⟩, true)

/-- The `while True` loop of `TaskScheduler.execute_dag`, fuelled: compute
the ready set, drop already executed tasks, stop when none remain,
otherwise run the round and stop on its first failure. -/
def executeDagLoop {V : Type} (outcome : String → ExecOutcome V)
    (dag : TaskDependencyDAG) : Nat → SchedState V → SchedState V
  | 0, st => st
  | fuel + 1, st =>
    let ready := (get_ready_tasks dag st.history).filter
      (fun tn => decide (tn ∉ st.executed))
    if ready = [] then st
    else
      match execRound outcome ready st with
      | (st2, true) => st2
      | (st2, false) => executeDagLoop outcome dag fuel st2

/-- `TaskScheduler.execute_dag`, starting from a given history with empty
results/executed/trace.  Each completed round executes at least one task,
so the loop runs at most one round per node and the fuel is never
exhausted; the fail-stop property proved below holds for every fuel. -/
def execute_dag {V : Type} (outcome : String → ExecOutcome V)
    (dag : TaskDependencyDAG) (history0 : List Event) : SchedState V :=
  executeDagLoop outcome dag (dag.nodes.length + 1) ⟨history0, [], [], []⟩

/-! ### Concrete fixtures used by witnesses and counterexamples -/

/-- A single dependency-free node. -/
def gSolo : TaskDependencyDAG := ⟨[("a", ⟨"a", [], []⟩)]⟩

/-- A history in which task `a` has completed. -/
def hSoloC : List Event :=
  [⟨"a", EventKind.completed, "t2", some "t1", some "t2", none⟩]

/-- A caller task with `limit_outdegree = 1`. -/
def callerLim1 : Task := ⟨"c_1", "c", some ⟨some 1, [], none, []⟩⟩

/-- An unconstrained callee task. -/
def calleeFree : Task := ⟨"u_1", "u", none⟩

/-- Registry in which `c_1` already has one committed outgoing edge (to
`x_1`), so its current outdegree equals its limit. -/
def regLim1 : TaskRegistry :=
  ⟨[("c_1", callerLim1), ("u_1", calleeFree), ("x_1", ⟨"x_1", "x", none⟩)],
    ⟨[("c_1", ⟨"c_1", [], ["x_1"]⟩), ("u_1", ⟨"u_1", [], []⟩),
      ("x_1", ⟨"x_1", ["c_1"], []⟩)]⟩, [], []⟩

/-- A callee whose incoming allow-list admits only base name `good`. -/
def calleeAllowGood : Task := ⟨"p_1", "p", some ⟨none, [], none, ["good"]⟩⟩

/-- A caller whose base name is outside that allow-list. -/
def callerBad : Task := ⟨"b_1", "bad", none⟩

/-- A caller with `limit_outdegree = 0`: its very first edge is rejected. -/
def callerLim0 : Task := ⟨"z_1", "z", some ⟨some 0, [], none, []⟩⟩

/-- Registry holding `callerLim0` and `calleeFree` as isolated nodes. -/
def regLim0 : TaskRegistry :=
  ⟨[("z_1", callerLim0), ("u_1", calleeFree)],
    ⟨[("z_1", ⟨"z_1", [], []⟩), ("u_1", ⟨"u_1", [], []⟩)]⟩, [], []⟩

/-- Acyclic two-node graph: `b` depends on `a`. -/
def gChain : TaskDependencyDAG :=
  ⟨[("a", ⟨"a", [], ["b"]⟩), ("b", ⟨"b", ["a"], []⟩)]⟩

/-- Two-node cycle: `a` and `b` depend on each other. -/
def gCycle : TaskDependencyDAG :=
  ⟨[("a", ⟨"a", ["b"], ["b"]⟩), ("b", ⟨"b", ["a"], ["a"]⟩)]⟩

/-! ### Association-list lemmas -/

theorem alookup_cons (k a : String) (b : β) (xs : List (String × β)) :
    alookup k ((a, b) :: xs) = if a = k then some b else alookup k xs := rfl

theorem alookup_isSome_iff (l : List (String × β)) (n : String) :
    (alookup n l).isSome = true ↔ n ∈ l.map Prod.fst := by
  induction l with
  | nil => simp [alookup]
  | cons p xs ih =>
    obtain ⟨a, b⟩ := p
    by_cases h : a = n
    · subst h; simp [alookup_cons]
    · simp [alookup_cons, h, ih, Ne.symm h]

theorem alookup_mem {l : List (String × β)} {k : String} {v : β}
    (h : alookup k l = some v) : (k, v) ∈ l := by
  induction l with
  | nil => simp [alookup] at h
  | cons p xs ih =>
    obtain ⟨a, b⟩ := p
    rw [alookup_cons] at h
    by_cases ha : a = k
    · rw [if_pos ha] at h
      subst ha
      cases h
      exact List.mem_cons_self _ _
    · rw [if_neg ha] at h
      exact List.mem_cons_of_mem _ (ih h)

theorem mem_alookup {l : List (String × β)} (hnd : (l.map Prod.fst).Nodup)
    {k : String} {v : β} (h : (k, v) ∈ l) : alookup k l = some v := by
  induction l with
  | nil => simp at h
  | cons p xs ih =>
    obtain ⟨a, b⟩ := p
    simp only [List.map_cons, List.nodup_cons] at hnd
    rcases List.mem_cons.mp h with h1 | h1
    · cases h1
      rw [alookup_cons, if_pos rfl]
    · have hak : a ≠ k := by
        rintro rfl
        exact hnd.1 (List.mem_map.mpr ⟨(a, v), h1, rfl⟩)
      rw [alookup_cons, if_neg hak]
      exact ih hnd.2 h1

theorem alookup_aset_isSome (l : List (String × β)) (k tn : String) (v : β) :
    (alookup tn (aset k v l)).isSome = true ↔
      tn = k ∨ (alookup tn l).isSome = true := by
  induction l with
  | nil =>
    by_cases h : k = tn
    · subst h; simp [aset, alookup_cons]
    · rw [show aset k v ([] : List (String × β)) = [(k, v)] from rfl,
        alookup_cons, if_neg h]
      simp [alookup]
      exact fun hh => h hh.symm
  | cons p xs ih =>
    obtain ⟨a, b⟩ := p
    by_cases hak : a = k
    · subst hak
      rw [show aset a v ((a, b) :: xs) = (a, v) :: xs from by simp [aset]]
      by_cases hta : a = tn
      · subst hta; simp [alookup_cons]
      · rw [alookup_cons, if_neg hta, alookup_cons, if_neg hta]
        constructor
        · exact Or.inr
        · rintro (h1 | h1)
          · exact absurd h1.symm hta
          · exact h1
    · rw [show aset k v ((a, b) :: xs) = (a, b) :: aset k v xs from by
        simp [aset, hak]]
      by_cases hta : a = tn
      · subst hta; simp [alookup_cons]
      · rw [alookup_cons, if_neg hta, alookup_cons, if_neg hta]
        exact ih

/-! ### C6: membership in the ready set -/

/-- C6 counterexample: in `gSolo` the dependency-free task `a` has already
completed, yet `get_ready_tasks` still lists it — the claim that no
already-completed task is a member of the ready set is false. -/
theorem ready_set_contains_completed_depfree_task :
    "a" ∈ get_ready_tasks gSolo hSoloC ∧ "a" ∈ completedTasks hSoloC := by
  decide

/-- C6 (amended): a task is in the ready set iff it is a node and either
its dependency set is empty (in which case completion is not checked), or
all its dependencies are completed and it is not itself completed. -/
theorem get_ready_tasks_mem_iff (dag : TaskDependencyDAG) (history : List Event)
    (n : String) :
    n ∈ get_ready_tasks dag history ↔
      ∃ nd, (n, nd) ∈ dag.nodes ∧
        (nd.dependencies = [] ∨
          ((∀ d ∈ nd.dependencies, d ∈ completedTasks history) ∧
            n ∉ completedTasks history)) := by
  simp only [get_ready_tasks, List.mem_map, List.mem_filter]
  constructor
  · rintro ⟨⟨a, nd⟩, ⟨hp, hcond⟩, rfl⟩
    refine ⟨nd, hp, ?_⟩
    by_cases hd : nd.dependencies = []
    · exact Or.inl hd
    · right
      simp only [hd, if_neg, ite_false] at hcond
      exact of_decide_eq_true hcond
  · rintro ⟨nd, hmem, hcond⟩
    refine ⟨(n, nd), ⟨hmem, ?_⟩, rfl⟩
    rcases hcond with h | h
    · simp [h]
    · by_cases hd : nd.dependencies = []
      · simp [hd]
      · simp only [hd, ite_false]
        exact decide_eq_true h

/-! ### C5: the incoming allow-list keys on the caller's base name -/

/-- C5: when the callee is registered with a non-empty incoming allow-list
and its indegree limit is not the binding rule, the incoming check passes
iff the caller's `base_name` is in the allow-list, and a caller with a
base name outside the list is rejected with a violation typed
`incoming_edges` naming the callee. -/
theorem incoming_allowlist_base_name (dag : TaskDependencyDAG)
    (tasks : List (String × Task)) (caller_task callee_task : String)
    (ci ce : Task) (cons : Constraints)
    (hce : alookup callee_task tasks = some ce)
    (hcons : ce.constraints = some cons)
    (hne : cons.allow_incoming_from_names ≠ [])
    (hlim : ∀ lim, cons.limit_indegree = some lim → (depsOf dag callee_task).length < lim) :
    (validate_incoming_edge_constraints dag tasks caller_task callee_task ci = none ↔
      ci.base_name ∈ cons.allow_incoming_from_names) ∧
    (ci.base_name ∉ cons.allow_incoming_from_names →
      ∃ e, validate_incoming_edge_constraints dag tasks caller_task callee_task ci = some e ∧
        e.constraint_type = "incoming_edges" ∧ e.task_name = callee_task) := by
  have hallow :
      incomingAllowCheck caller_task callee_task ci cons =
        if ci.base_name ∈ cons.allow_incoming_from_names then none
        else some ⟨incomingAllowMsg caller_task callee_task ci.base_name
          cons.allow_incoming_from_names, "incoming_edges", callee_task⟩ := by
    unfold incomingAllowCheck
    by_cases hb : ci.base_name ∈ cons.allow_incoming_from_names
    · rw [if_neg (by simp [hb]), if_pos hb]
    · rw [if_pos ⟨hne, hb⟩, if_neg hb]
  have hred :
      validate_incoming_edge_constraints dag tasks caller_task callee_task ci =
        incomingAllowCheck caller_task callee_task ci cons := by
    unfold validate_incoming_edge_constraints
    simp only [hce, hcons]
    cases hl : cons.limit_indegree with
    | none => rfl
    | some lim =>
      have hlt := hlim lim hl
      simp [Nat.not_le.mpr hlt]
  rw [hred, hallow]
  by_cases hb : ci.base_name ∈ cons.allow_incoming_from_names
  · simp [hb]
  · simp [hb]

/-- C5 witness: `callerBad` (base name `bad`) is rejected by
`calleeAllowGood`, whose allow-list admits only `good`. -/
theorem incoming_allowlist_base_name_witness :
    ∃ e, validate_incoming_edge_constraints ⟨[]⟩ [("p_1", calleeAllowGood)]
        "b_1" "p_1" callerBad = some e ∧
      e.constraint_type = "incoming_edges" ∧ e.task_name = "p_1" :=
  (incoming_allowlist_base_name ⟨[]⟩ [("p_1", calleeAllowGood)] "b_1" "p_1"
    callerBad calleeAllowGood ⟨none, [], none, ["good"]⟩ (by decide) (by decide)
    (by decide) (by intro lim h; cases h)).2 (by decide)

/-! ### C3: the outdegree limit rejects the next edge and commits nothing -/

theorem add_task_of_mem (g : TaskDependencyDAG) (n : String)
    (h : n ∈ nodeNames g) : g.add_task n = g := by
  unfold TaskDependencyDAG.add_task
  rw [if_pos ((alookup_isSome_iff g.nodes n).mpr h)]

/-- C3: a caller whose committed outdegree already equals its
`limit_outdegree` has its next edge-creation attempt rejected with a
violation typed `outgoing_edges` carrying the outdegree-limit message and
naming the caller, and the registry — its graph's nodes and edges
included — is returned unchanged.  (The caller is always a graph node
because registration inserts it; the callee hypothesis likewise reflects
that every registered task is already a node.) -/
theorem outdegree_limit_rejects_next_edge (reg : TaskRegistry)
    (caller_task callee_task : String) (ci : Task) (c : Constraints) (k : Nat)
    (hc : ci.constraints = some c) (hk : c.limit_outdegree = some k)
    (hdeg : (dptsOf reg.execution_plan caller_task).length = k)
    (hcaller : caller_task ∈ nodeNames reg.execution_plan)
    (hcallee : callee_task ∈ nodeNames reg.execution_plan ∨
      alookup callee_task reg.tasks = none) :
    add_runtime_dependency reg caller_task callee_task ci =
      (reg, some ⟨outdegreeLimitMsg caller_task callee_task k k,
        "outgoing_edges", caller_task⟩) := by
  unfold add_runtime_dependency
  rw [add_task_of_mem reg.execution_plan caller_task hcaller]
  have hdag2 :
      (if (alookup callee_task reg.tasks).isSome
        then reg.execution_plan.add_task callee_task
        else reg.execution_plan) = reg.execution_plan := by
    rcases hcallee with h | h
    · by_cases hs : (alookup callee_task reg.tasks).isSome
      · rw [if_pos hs, add_task_of_mem reg.execution_plan callee_task h]
      · rw [if_neg hs]
    · simp [h]
  have hval :
      validate_dependency reg.execution_plan reg.tasks caller_task callee_task ci =
        some ⟨outdegreeLimitMsg caller_task callee_task k k,
          "outgoing_edges", caller_task⟩ := by
    unfold validate_dependency validate_outgoing_edge_constraints
    simp only [hc, hk, hdeg]
    rw [if_pos (Nat.le_refl k)]
  dsimp only
  rw [hdag2, hval]

/-- C3 witness: `c_1` has limit 1 and one committed edge; the second
attempt is rejected and `regLim1` is unchanged. -/
theorem outdegree_limit_rejects_next_edge_witness :
    add_runtime_dependency regLim1 "c_1" "u_1" callerLim1 =
      (regLim1, some ⟨outdegreeLimitMsg "c_1" "u_1" 1 1,
        "outgoing_edges", "c_1"⟩) :=
  outdegree_limit_rejects_next_edge regLim1 "c_1" "u_1" callerLim1
    ⟨some 1, [], none, []⟩ 1 (by decide) (by decide) (by decide) (by decide)
    (Or.inl (by decide))

/-! ### Invocation bookkeeping: C1, C7, C10 -/

theorem popLastStarted_append_started (name ts : String) (h : List Event) :
    popLastStarted name (h ++ [mkStarted name ts]) = (some ts, h) := by
  induction h with
  | nil => simp [popLastStarted, mkStarted]
  | cons e rest ih => simp [popLastStarted, ih]

theorem popLastStarted_no_started (name : String) (h : List Event)
    (hn : ∀ e ∈ h, ¬(e.task = name ∧ e.kind = EventKind.started)) :
    popLastStarted name h = (none, h) := by
  induction h with
  | nil => rfl
  | cons e rest ih =>
    have h1 : popLastStarted name rest = (none, rest) :=
      ih (fun x hx => hn x (List.mem_cons_of_mem _ hx))
    simp [popLastStarted, h1, hn e (List.mem_cons_self _ _)]

theorem add_runtime_dependency_history (reg : TaskRegistry) (a b : String)
    (ci : Task) :
    (add_runtime_dependency reg a b ci).1.execution_history =
      reg.execution_history := by
  unfold add_runtime_dependency
  dsimp only
  split <;> split <;> rfl

/-- C1: every invocation whose body returns normally hits the arity bug:
`registry.mark_task_completed(self.name, result)` passes two positional
arguments to a method declaring only `task_name`, so instead of a
`completed` event and the body's result the caller gets a
`RuntimeError`-wrapped `TypeError` and the history records the task as
`failed`.  The claim describes the intended success path; the code cannot
take it. -/
theorem task_success_path_marks_failed {V : Type} (reg : TaskRegistry) (t : Task)
    (v : V) (tStart tEnd : String) :
    (task_call reg t none (Except.ok v) tStart tEnd).2 =
      Except.error (PyError.runtimeError (taskFailedMsg t.name markCompletedArityMsg)
        (PyError.typeError markCompletedArityMsg)) ∧
    (task_call reg t none (Except.ok v) tStart tEnd).1.execution_history =
      reg.execution_history ++
        [⟨t.name, EventKind.failed, tEnd, some tStart, some tEnd,
          some markCompletedArityMsg⟩] := by
  constructor
  · rfl
  · show (mark_task_failed (mark_task_started reg t.name tStart) t.name
      markCompletedArityMsg tEnd).execution_history = _
    simp [mark_task_failed, mark_task_started, popLastStarted_append_started]

/-- C7: when the body raises, the task is marked failed (the started event
is replaced by a `failed` event storing the stringified error and the
duration window) and the error is re-raised — unchanged when it is a
`ConstraintViolationError`, wrapped in a task-failure `RuntimeError`
naming the task and carrying the original error as cause otherwise. -/
theorem task_failure_wrapped_unless_violation {V : Type} (reg : TaskRegistry)
    (t : Task) (e : PyError) (tStart tEnd : String) :
    (task_call (V := V) reg t none (Except.error e) tStart tEnd).1.execution_history =
      reg.execution_history ++
        [⟨t.name, EventKind.failed, tEnd, some tStart, some tEnd, some (pyStr e)⟩] ∧
    (task_call (V := V) reg t none (Except.error e) tStart tEnd).2 =
      (match e with
        | PyError.constraintViolation _ => Except.error e
        | _ => Except.error (PyError.runtimeError (taskFailedMsg t.name (pyStr e)) e)) := by
  cases e <;>
    simp [task_call, mark_task_failed, mark_task_started,
      popLastStarted_append_started]

/-- C10: when the automatic edge-creation step raises a constraint
violation, the invoked task is never marked started, yet the `except`
block still records a `failed` event for it — with `start_time = none`
because no started event exists to pop — and the violation is re-raised
unchanged. -/
theorem violation_before_start_records_failed_null_start {V : Type}
    (reg : TaskRegistry) (t c : Task) (body : Except PyError V)
    (tStart tEnd : String) (err : ConstraintViolationError)
    (hv : (add_runtime_dependency reg c.name t.name c).2 = some err)
    (hns : ∀ e ∈ reg.execution_history,
      ¬(e.task = t.name ∧ e.kind = EventKind.started)) :
    (task_call reg t (some c) body tStart tEnd).1.execution_history =
      reg.execution_history ++
        [⟨t.name, EventKind.failed, tEnd, none, some tEnd, some (cveStr err)⟩] ∧
    (task_call reg t (some c) body tStart tEnd).2 =
      Except.error (PyError.constraintViolation err) := by
  have hpop := popLastStarted_no_started t.name reg.execution_history hns
  rcases hp : add_runtime_dependency reg c.name t.name c with ⟨reg1, ov⟩
  have hh := add_runtime_dependency_history reg c.name t.name c
  rw [hp] at hh hv
  simp only at hh hv
  subst hv
  unfold task_call
  dsimp only
  rw [hp]
  refine ⟨?_, rfl⟩
  simp [mark_task_failed, hh, hpop]

/-- C10 witness: `z_1` has `limit_outdegree = 0`, so its first call into
`u_1` violates the limit before `u_1` is marked started; `u_1` still gets
a `failed` event with a null start time. -/
theorem violation_before_start_records_failed_null_start_witness :
    (task_call (V := Nat) regLim0 calleeFree (some callerLim0) (Except.ok 1)
        "s" "e").1.execution_history =
      [⟨"u_1", EventKind.failed, "e", none, some "e",
        some (cveStr ⟨outdegreeLimitMsg "z_1" "u_1" 0 0, "outgoing_edges", "z_1"⟩)⟩] :=
  (violation_before_start_records_failed_null_start regLim0 calleeFree callerLim0
    (Except.ok 1) "s" "e" ⟨outdegreeLimitMsg "z_1" "u_1" 0 0, "outgoing_edges", "z_1"⟩
    (by decide) (by intro e he; cases he)).1

/-! ### C2: the scheduler halts on the first failure -/

theorem execRound_spec {V : Type} (outcome : String → ExecOutcome V) :
    ∀ (ts : List String) (st : SchedState V),
      (∀ p ∈ st.trace, p.2.isOk = true) →
      (∀ tn, (alookup tn st.results).isSome = true ↔
        ∃ v, (tn, ExecOutcome.ok v) ∈ st.trace) →
      (∀ p ∈ (execRound outcome ts st).1.trace.dropLast, p.2.isOk = true) ∧
      ((execRound outcome ts st).2 = false →
        ∀ p ∈ (execRound outcome ts st).1.trace, p.2.isOk = true) ∧
      (∀ tn, (alookup tn (execRound outcome ts st).1.results).isSome = true ↔
        ∃ v, (tn, ExecOutcome.ok v) ∈ (execRound outcome ts st).1.trace) := by
  intro ts
  induction ts with
  | nil =>
    intro st h1 h2
    exact ⟨fun p hp => h1 p (List.dropLast_sublist st.trace |>.mem hp),
      fun _ => h1, h2⟩
  | cons tn ts ih =>
    intro st h1 h2
    cases ho : outcome tn with
    | ok v =>
      have h1' : ∀ p ∈ st.trace ++ [(tn, ExecOutcome.ok v)], p.2.isOk = true := by
        intro p hp
        rcases List.mem_append.mp hp with hp | hp
        · exact h1 p hp
        · rcases List.mem_singleton.mp hp with rfl
          rfl
      have h2' : ∀ tn2, (alookup tn2 (aset tn v st.results)).isSome = true ↔
          ∃ v2, (tn2, ExecOutcome.ok v2) ∈ st.trace ++ [(tn, ExecOutcome.ok v)] := by
        intro tn2
        rw [alookup_aset_isSome, h2 tn2]
        constructor
        · rintro (rfl | ⟨v2, hv2⟩)
          · exact ⟨v, List.mem_append.mpr (Or.inr (List.mem_singleton.mpr rfl))⟩
          · exact ⟨v2, List.mem_append.mpr (Or.inl hv2)⟩
        · rintro ⟨v2, hv2⟩
          rcases List.mem_append.mp hv2 with hv2 | hv2
          · exact Or.inr ⟨v2, hv2⟩
          · rcases List.mem_singleton.mp hv2 with h
            exact Or.inl (congrArg Prod.fst h)
      have := ih ⟨st.history ++ [⟨tn, EventKind.completed, "", none, none, none⟩],
        aset tn v st.results, st.executed ++ [tn],
        st.trace ++ [(tn, ExecOutcome.ok v)]⟩ h1' h2'
      simpa [execRound, ho] using this
    | raises b =>
      refine ⟨?_, ?_, ?_⟩
      · intro p hp
        simp only [execRound, ho] at hp
        rw [List.dropLast_concat] at hp
        exact h1 p hp
      · intro hfalse
        simp [execRound, ho] at hfalse
      · intro tn2
        simp only [execRound, ho]
        rw [h2 tn2]
        constructor
        · rintro ⟨v2, hv2⟩
          exact ⟨v2, List.mem_append.mpr (Or.inl hv2)⟩
        · rintro ⟨v2, hv2⟩
          rcases List.mem_append.mp hv2 with hv2 | hv2
          · exact ⟨v2, hv2⟩
          · rcases List.mem_singleton.mp hv2 with h
            cases h

theorem executeDagLoop_spec {V : Type} (outcome : String → ExecOutcome V)
    (dag : TaskDependencyDAG) :
    ∀ (fuel : Nat) (st : SchedState V),
      (∀ p ∈ st.trace, p.2.isOk = true) →
      (∀ tn, (alookup tn st.results).isSome = true ↔
        ∃ v, (tn, ExecOutcome.ok v) ∈ st.trace) →
      (∀ p ∈ (executeDagLoop outcome dag fuel st).trace.dropLast, p.2.isOk = true) ∧
      (∀ tn, (alookup tn (executeDagLoop outcome dag fuel st).results).isSome = true ↔
        ∃ v, (tn, ExecOutcome.ok v) ∈ (executeDagLoop outcome dag fuel st).trace) := by
  intro fuel
  induction fuel with
  | zero =>
    intro st h1 h2
    exact ⟨fun p hp => h1 p (List.dropLast_sublist st.trace |>.mem hp), h2⟩
  | succ f ih =>
    intro st h1 h2
    unfold executeDagLoop
    dsimp only
    by_cases hr : (get_ready_tasks dag st.history).filter
        (fun tn => decide (tn ∉ st.executed)) = []
    · rw [if_pos hr]
      exact ⟨fun p hp => h1 p (List.dropLast_sublist st.trace |>.mem hp), h2⟩
    · rw [if_neg hr]
      have hround := execRound_spec outcome
        ((get_ready_tasks dag st.history).filter (fun tn => decide (tn ∉ st.executed)))
        st h1 h2
      rcases he : execRound outcome
        ((get_ready_tasks dag st.history).filter (fun tn => decide (tn ∉ st.executed)))
        st with ⟨st2, flag⟩
      rw [he] at hround
      cases flag with
      | true => exact ⟨hround.1, hround.2.2⟩
      | false => exact ih st2 (hround.2.1 rfl) hround.2.2

/-- C2: in every `execute_dag` run, any execution that raises (constraint
violation or otherwise) is the last execution attempted — no later task
runs — and the returned results dict holds exactly the tasks whose
executions returned normally before the failure was observed. -/
theorem execute_dag_fail_stop {V : Type} (outcome : String → ExecOutcome V)
    (dag : TaskDependencyDAG) (history0 : List Event) :
    (∀ p ∈ (execute_dag outcome dag history0).trace.dropLast, p.2.isOk = true) ∧
    (∀ tn, (alookup tn (execute_dag outcome dag history0).results).isSome = true ↔
      ∃ v, (tn, ExecOutcome.ok v) ∈ (execute_dag outcome dag history0).trace) := by
  refine executeDagLoop_spec outcome dag (dag.nodes.length + 1)
    ⟨history0, [], [], []⟩ ?_ ?_
  · intro p hp
    cases hp
  · intro tn
    simp [alookup]

/-! ### Kahn's algorithm: basic bookkeeping lemmas -/

theorem map_fst_degDec (indeg : List (String × Int)) (n : String) :
    (degDec indeg n).map Prod.fst = indeg.map Prod.fst := by
  unfold degDec
  rw [List.map_map]
  apply List.map_congr_left
  intro p _
  by_cases h : p.1 = n <;> simp [h]

theorem degOf_degDec_ne (indeg : List (String × Int)) {n k : String}
    (h : k ≠ n) : degOf (degDec indeg n) k = degOf indeg k := by
  induction indeg with
  | nil => rfl
  | cons p xs ih =>
    obtain ⟨a, b⟩ := p
    by_cases ha : a = n
    · subst ha
      have hak : a ≠ k := fun hh => h hh.symm
      simp [degDec, degOf, alookup_cons, hak] at ih ⊢
      simpa [degDec, degOf] using ih
    · by_cases hak : a = k
      · subst hak
        simp [degDec, degOf, alookup_cons, ha]
      · simp only [degDec, List.map_cons, if_neg ha]
        simp only [degOf, alookup_cons, if_neg hak] at ih ⊢
        simpa [degDec, degOf] using ih

theorem degOf_degDec_self (indeg : List (String × Int)) (k : String)
    (hmem : k ∈ indeg.map Prod.fst) :
    degOf (degDec indeg k) k = degOf indeg k - 1 := by
  induction indeg with
  | nil => simp at hmem
  | cons p xs ih =>
    obtain ⟨a, b⟩ := p
    by_cases hak : a = k
    · subst hak
      simp [degDec, degOf, alookup_cons]
    · simp only [List.map_cons, List.mem_cons] at hmem
      rcases hmem with h | h
      · exact absurd h.symm hak
      · simp only [degDec, List.map_cons, if_neg hak]
        simp only [degOf, alookup_cons, if_neg hak] at ih ⊢
        simpa [degDec, degOf] using ih h

theorem map_fst_decAll (ds : List String) :
    ∀ indeg : List (String × Int), (decAll indeg ds).map Prod.fst = indeg.map Prod.fst := by
  induction ds with
  | nil => intro indeg; rfl
  | cons d ds ih =>
    intro indeg
    show (decAll (degDec indeg d) ds).map Prod.fst = _
    rw [ih (degDec indeg d), map_fst_degDec]

theorem degOf_decAll_not_mem (ds : List String) :
    ∀ (indeg : List (String × Int)) (k : String), k ∉ ds →
      degOf (decAll indeg ds) k = degOf indeg k := by
  induction ds with
  | nil => intro indeg k _; rfl
  | cons d ds ih =>
    intro indeg k hk
    have hkd : k ≠ d := fun h => hk (h ▸ List.mem_cons_self d ds)
    have hkds : k ∉ ds := fun h => hk (List.mem_cons_of_mem d h)
    show degOf (decAll (degDec indeg d) ds) k = _
    rw [ih (degDec indeg d) k hkds, degOf_degDec_ne indeg hkd]

theorem degOf_decAll_mem (ds : List String) :
    ∀ (indeg : List (String × Int)) (k : String), ds.Nodup → k ∈ ds →
      k ∈ indeg.map Prod.fst →
      degOf (decAll indeg ds) k = degOf indeg k - 1 := by
  induction ds with
  | nil => intro indeg k _ hk; simp at hk
  | cons d ds ih =>
    intro indeg k hnd hk hmem
    rcases List.mem_cons.mp hk with rfl | hk2
    · have hknds : k ∉ ds := (List.nodup_cons.mp hnd).1
      show degOf (decAll (degDec indeg k) ds) k = _
      rw [degOf_decAll_not_mem ds (degDec indeg k) k hknds,
        degOf_degDec_self indeg k hmem]
    · have hkd : k ≠ d := by
        rintro rfl
        exact (List.nodup_cons.mp hnd).1 hk2
      show degOf (decAll (degDec indeg d) ds) k = _
      rw [ih (degDec indeg d) k (List.nodup_cons.mp hnd).2 hk2
        (by rw [map_fst_degDec]; exact hmem), degOf_degDec_ne indeg hkd]

theorem foldl_kahnStep_eq (ds : List String) :
    ∀ (indeg : List (String × Int)) (q : List String), ds.Nodup →
      (∀ d ∈ ds, d ∈ indeg.map Prod.fst) →
      ds.foldl kahnStep (indeg, q) =
        (decAll indeg ds, q ++ ds.filter (fun d => decide (degOf indeg d = 1))) := by
  induction ds with
  | nil => intro indeg q _ _; simp [decAll]
  | cons d ds ih =>
    intro indeg q hnd hsub
    have hdk : d ∈ indeg.map Prod.fst := hsub d (List.mem_cons_self d ds)
    have hcond : (degOf (degDec indeg d) d = 0) ↔ (degOf indeg d = 1) := by
      rw [degOf_degDec_self indeg d hdk, sub_eq_zero]
    have hstep : kahnStep (indeg, q) d =
        (degDec indeg d, q ++ if degOf indeg d = 1 then [d] else []) := by
      unfold kahnStep
      by_cases h1 : degOf indeg d = 1
      · rw [if_pos (hcond.mpr h1), if_pos h1]
      · rw [if_neg (fun hh => h1 (hcond.mp hh)), if_neg h1]
        simp
    show List.foldl kahnStep (kahnStep (indeg, q) d) ds = _
    rw [hstep, ih (degDec indeg d) _ (List.nodup_cons.mp hnd).2
      (fun x hx => by rw [map_fst_degDec]; exact hsub x (List.mem_cons_of_mem d hx))]
    have hfil : ds.filter (fun x => decide (degOf (degDec indeg d) x = 1)) =
        ds.filter (fun x => decide (degOf indeg x = 1)) := by
      apply List.filter_congr
      intro x hx
      have hxd : x ≠ d := by
        rintro rfl
        exact (List.nodup_cons.mp hnd).1 hx
      rw [degOf_degDec_ne indeg hxd]
    rw [hfil]
    apply Prod.ext
    · rfl
    · by_cases h1 : degOf indeg d = 1
      · simp [List.filter_cons, h1, List.append_assoc]
      · simp [List.filter_cons, h1]

theorem alookup_map_val (l : List (String × α)) (f : α → β) (k : String) :
    alookup k (l.map (fun p => (p.1, f p.2))) = (alookup k l).map f := by
  induction l with
  | nil => rfl
  | cons p xs ih =>
    obtain ⟨a, b⟩ := p
    by_cases h : a = k <;> simp [alookup_cons, h, ih]

theorem length_filter_and_ne (l : List String) :
    ∀ (_ : l.Nodup) (a : String), a ∈ l → ∀ p : String → Bool, p a = true →
      (l.filter fun x => p x && decide (x ≠ a)).length + 1 = (l.filter p).length := by
  induction l with
  | nil => intro _ a ha; cases ha
  | cons x xs ih =>
    intro hnd a ha p hpa
    have hnd2 := List.nodup_cons.mp hnd
    rcases List.mem_cons.mp ha with rfl | ha2
    · have hfil : (List.filter (fun y => p y && decide (y ≠ a)) xs) =
          List.filter p xs := by
        apply List.filter_congr
        intro y hy
        have hyx : y ≠ a := fun hh => hnd2.1 (hh ▸ hy)
        simp [hyx]
      have h1 : List.filter (fun y => p y && decide (y ≠ a)) (a :: xs) =
          List.filter (fun y => p y && decide (y ≠ a)) xs := by
        rw [List.filter_cons, if_neg]
        simp
      have h2 : List.filter p (a :: xs) = a :: List.filter p xs := by
        rw [List.filter_cons, if_pos hpa]
      rw [h1, h2, hfil, List.length_cons]
    · have hxa : x ≠ a := by
        rintro rfl
        exact hnd2.1 ha2
      have hih := ih hnd2.2 a ha2 p hpa
      by_cases hx : p x = true
      · have h1 : List.filter (fun y => p y && decide (y ≠ a)) (x :: xs) =
            x :: List.filter (fun y => p y && decide (y ≠ a)) xs := by
          rw [List.filter_cons, if_pos]
          simp [hx, hxa]
        have h2 : List.filter p (x :: xs) = x :: List.filter p xs := by
          rw [List.filter_cons, if_pos hx]
        rw [h1, h2, List.length_cons, List.length_cons]
        omega
      · have hx2 : p x = false := by
          cases hpx : p x
          · rfl
          · exact absurd hpx hx
        have h1 : List.filter (fun y => p y && decide (y ≠ a)) (x :: xs) =
            List.filter (fun y => p y && decide (y ≠ a)) xs := by
          rw [List.filter_cons, if_neg]
          simp [hx2]
        have h2 : List.filter p (x :: xs) = List.filter p xs := by
          rw [List.filter_cons, if_neg]
          simp [hx2]
        rw [h1, h2]
        exact hih

theorem indexOf_concat_self (l : List String) (a : String) (h : a ∉ l) :
    (l ++ [a]).indexOf a = l.length := by
  rw [List.indexOf_append_of_not_mem h, List.indexOf_cons_self]
  omega

theorem exists_alookup_of_mem_names {g : TaskDependencyDAG} {n : String}
    (hn : n ∈ nodeNames g) :
    ∃ nd, alookup n g.nodes = some nd ∧ (n, nd) ∈ g.nodes := by
  have hs := (alookup_isSome_iff g.nodes n).mpr hn
  rcases ho : alookup n g.nodes with _ | nd
  · rw [ho] at hs; cases hs
  · exact ⟨nd, rfl, alookup_mem ho⟩

theorem depsOf_eq_of_alookup {g : TaskDependencyDAG} {n : String} {nd : DAGNode}
    (h : alookup n g.nodes = some nd) : depsOf g n = nd.dependencies := by
  unfold depsOf
  rw [h]

theorem dptsOf_eq_of_alookup {g : TaskDependencyDAG} {n : String} {nd : DAGNode}
    (h : alookup n g.nodes = some nd) : dptsOf g n = nd.dependents := by
  unfold dptsOf
  rw [h]

theorem WF.names_nodup {g : TaskDependencyDAG} (hw : WF g) : (nodeNames g).Nodup :=
  hw.1

theorem WF.deps_nodup {g : TaskDependencyDAG} (hw : WF g) {n : String}
    (hn : n ∈ nodeNames g) : (depsOf g n).Nodup := by
  obtain ⟨nd, ha, hm⟩ := exists_alookup_of_mem_names hn
  rw [depsOf_eq_of_alookup ha]
  exact (hw.2.2.1 (n, nd) hm).1

theorem WF.dpts_nodup {g : TaskDependencyDAG} (hw : WF g) {n : String}
    (hn : n ∈ nodeNames g) : (dptsOf g n).Nodup := by
  obtain ⟨nd, ha, hm⟩ := exists_alookup_of_mem_names hn
  rw [dptsOf_eq_of_alookup ha]
  exact (hw.2.2.1 (n, nd) hm).2

theorem WF.deps_sub {g : TaskDependencyDAG} (hw : WF g) {n : String}
    (hn : n ∈ nodeNames g) : ∀ d ∈ depsOf g n, d ∈ nodeNames g := by
  obtain ⟨nd, ha, hm⟩ := exists_alookup_of_mem_names hn
  rw [depsOf_eq_of_alookup ha]
  exact (hw.2.2.2.1 (n, nd) hm).1

theorem WF.dpts_sub {g : TaskDependencyDAG} (hw : WF g) {n : String}
    (hn : n ∈ nodeNames g) : ∀ d ∈ dptsOf g n, d ∈ nodeNames g := by
  obtain ⟨nd, ha, hm⟩ := exists_alookup_of_mem_names hn
  rw [dptsOf_eq_of_alookup ha]
  exact (hw.2.2.2.1 (n, nd) hm).2

theorem WF.mem_deps_iff {g : TaskDependencyDAG} (hw : WF g) {a b : String}
    (ha : a ∈ nodeNames g) (hb : b ∈ nodeNames g) :
    a ∈ depsOf g b ↔ b ∈ dptsOf g a := by
  obtain ⟨na, haa, hma⟩ := exists_alookup_of_mem_names ha
  obtain ⟨nb, hab, hmb⟩ := exists_alookup_of_mem_names hb
  rw [depsOf_eq_of_alookup hab, dptsOf_eq_of_alookup haa]
  exact hw.2.2.2.2 (a, na) hma (b, nb) hmb

theorem map_fst_initInDegrees (g : TaskDependencyDAG) :
    (initInDegrees g).map Prod.fst = nodeNames g := by
  unfold initInDegrees nodeNames
  rw [List.map_map]
  rfl

theorem alookup_initInDegrees (g : TaskDependencyDAG) (n : String) :
    alookup n (initInDegrees g) =
      (alookup n g.nodes).map (fun nd => (nd.dependencies.length : Int)) :=
  alookup_map_val g.nodes (fun nd => (nd.dependencies.length : Int)) n

theorem kahnInv_init (g : TaskDependencyDAG) (hw : WF g) :
    KahnInv g (((initInDegrees g).filter (fun p => decide (p.2 = 0))).map Prod.fst)
      (initInDegrees g) [] := by
  have hkeys := map_fst_initInDegrees g
  have hnd0 : ((initInDegrees g).map Prod.fst).Nodup := by
    rw [hkeys]; exact hw.names_nodup
  have hqsub : ∀ x ∈ ((initInDegrees g).filter
      (fun p => decide (p.2 = 0))).map Prod.fst, x ∈ nodeNames g := by
    intro x hx
    rw [← hkeys]
    exact (List.Sublist.map Prod.fst (List.filter_sublist _)).mem hx
  refine ⟨hkeys, List.nodup_nil, ?_, ?_, hqsub, ?_, ?_, ?_, ?_, ?_⟩
  · exact (List.Sublist.map Prod.fst (List.filter_sublist _)).nodup hnd0
  · intro x hx; cases hx
  · intro x _ hx; cases hx
  · intro n hn
    obtain ⟨nd, ha, _⟩ := exists_alookup_of_mem_names hn
    rw [degOf, alookup_initInDegrees, ha, depsOf_eq_of_alookup ha]
    simp
  · intro x hx
    rcases List.mem_map.mp hx with ⟨⟨p1, p2⟩, hpf, rfl⟩
    have hpm := List.mem_filter.mp hpf
    have hz : p2 = 0 := by simpa using hpm.2
    have hl : alookup p1 (initInDegrees g) = some p2 := mem_alookup hnd0 hpm.1
    rw [degOf, hl, hz]
    rfl
  · intro n hn _ hnq
    obtain ⟨v, hv⟩ : ∃ v, alookup n (initInDegrees g) = some v := by
      have hs := (alookup_isSome_iff (initInDegrees g) n).mpr
        (by rw [hkeys]; exact hn)
      rcases ho : alookup n (initInDegrees g) with _ | v
      · rw [ho] at hs; cases hs
      · exact ⟨v, rfl⟩
    rw [degOf, hv]
    intro hzero
    have hv0 : v = 0 := by simpa using hzero
    apply hnq
    apply List.mem_map.mpr
    refine ⟨(n, v), List.mem_filter.mpr ⟨alookup_mem hv, by simp [hv0]⟩, rfl⟩
  · intro n hn; cases hn

theorem kahnInv_step (g : TaskDependencyDAG) (hw : WF g) (current : String)
    (rest : List String) (indeg : List (String × Int)) (result : List String)
    (h : KahnInv g (current :: rest) indeg result) :
    KahnInv g ((dptsOf g current).foldl kahnStep (indeg, rest)).2
      ((dptsOf g current).foldl kahnStep (indeg, rest)).1 (result ++ [current]) := by
  have hcur : current ∈ nodeNames g := h.q_sub current (List.mem_cons_self _ _)
  have hcurres : current ∉ result := h.disj current (List.mem_cons_self _ _)
  have hq0 : degOf indeg current = 0 := h.q_zero current (List.mem_cons_self _ _)
  have hcurrest : current ∉ rest := (List.nodup_cons.mp h.q_nodup).1
  have hrestnd : rest.Nodup := (List.nodup_cons.mp h.q_nodup).2
  have hdsnd : (dptsOf g current).Nodup := hw.dpts_nodup hcur
  have hdsub : ∀ d ∈ dptsOf g current, d ∈ nodeNames g := hw.dpts_sub hcur
  rw [foldl_kahnStep_eq (dptsOf g current) indeg rest hdsnd
    (fun d hd => by rw [h.keys_eq]; exact hdsub d hd)]
  set ds := dptsOf g current with hds
  set nw := ds.filter (fun d => decide (degOf indeg d = 1)) with hnw
  -- nodes with degree 0 have all dependencies in the result
  have hdeg0deps : ∀ x, x ∈ nodeNames g → degOf indeg x = 0 →
      ∀ d ∈ depsOf g x, d ∈ result := by
    intro x hxK hx0 d hd
    by_contra hdr
    have hc := h.deg_count x hxK
    rw [hx0] at hc
    have hlen0 : ((depsOf g x).filter (fun d => decide (d ∉ result))).length = 0 := by
      exact_mod_cast hc.symm
    have hmemf : d ∈ (depsOf g x).filter (fun d => decide (d ∉ result)) :=
      List.mem_filter.mpr ⟨hd, by simpa using hdr⟩
    rw [List.length_eq_zero.mp hlen0] at hmemf
    cases hmemf
  have hdepsdone : ∀ d ∈ depsOf g current, d ∈ result := hdeg0deps current hcur hq0
  have hnwdeg : ∀ x ∈ nw, degOf indeg x = 1 := by
    intro x hx
    simpa using (List.mem_filter.mp hx).2
  have hnwds : ∀ x ∈ nw, x ∈ ds := fun x hx => (List.mem_filter.mp hx).1
  -- a node already in the result has degree 0
  have hresdeg : ∀ x ∈ result, x ∈ nodeNames g → degOf indeg x = 0 := by
    intro x hx hxK
    have hc := h.deg_count x hxK
    have hfe : (depsOf g x).filter (fun d => decide (d ∉ result)) = [] := by
      rw [List.filter_eq_nil_iff]
      intro d hd
      simpa using (h.before_deps x hx d hd).1
    rw [hfe] at hc
    simpa using hc
  -- elements of rest are never dependents of current
  have hrestds : ∀ x ∈ rest, x ∉ ds := by
    intro x hx hxds
    have hxK := h.q_sub x (List.mem_cons_of_mem _ hx)
    have hcd : current ∈ depsOf g x := (hw.mem_deps_iff hcur hxK).mpr hxds
    exact hcurres (hdeg0deps x hxK (h.q_zero x (List.mem_cons_of_mem _ hx)) current hcd)
  refine ⟨?_, ?_, ?_, ?_, ?_, ?_, ?_, ?_, ?_, ?_⟩
  · rw [map_fst_decAll, h.keys_eq]
  · exact List.nodup_append.mpr ⟨h.res_nodup, List.nodup_singleton current,
      fun x hx hx2 => hcurres ((List.mem_singleton.mp hx2) ▸ hx)⟩
  · refine List.nodup_append.mpr ⟨hrestnd, hdsnd.filter _, ?_⟩
    intro x hx hx2
    have h0 := h.q_zero x (List.mem_cons_of_mem _ hx)
    have h1 := hnwdeg x hx2
    rw [h0] at h1
    cases h1
  · intro x hx
    rcases List.mem_append.mp hx with hx | hx
    · exact h.res_sub x hx
    · rw [List.mem_singleton.mp hx]
      exact hcur
  · intro x hx
    rcases List.mem_append.mp hx with hx | hx
    · exact h.q_sub x (List.mem_cons_of_mem _ hx)
    · exact hdsub x (hnwds x hx)
  · intro x hx hmem
    rcases List.mem_append.mp hx with hx | hx
    · rcases List.mem_append.mp hmem with hr | hc
      · exact h.disj x (List.mem_cons_of_mem _ hx) hr
      · rw [List.mem_singleton.mp hc] at hx
        exact hcurrest hx
    · rcases List.mem_append.mp hmem with hr | hc
      · have hd1 := hnwdeg x hx
        rw [hresdeg x hr (hdsub x (hnwds x hx))] at hd1
        cases hd1
      · have hd1 := hnwdeg x hx
        rw [List.mem_singleton.mp hc, hq0] at hd1
        cases hd1
  · intro n hnK
    by_cases hnds : n ∈ ds
    · rw [degOf_decAll_mem ds indeg n hdsnd hnds (by rw [h.keys_eq]; exact hnK),
        h.deg_count n hnK]
      have hcd : current ∈ depsOf g n := (hw.mem_deps_iff hcur hnK).mpr hnds
      have hlen := length_filter_and_ne (depsOf g n) (hw.deps_nodup hnK) current hcd
        (fun d => decide (d ∉ result)) (by simpa using hcurres)
      have hlen2 : ((depsOf g n).filter
            (fun d => decide (d ∉ result) && decide (d ≠ current))).length + 1 =
          ((depsOf g n).filter (fun d => decide (d ∉ result))).length := hlen
      have hfil : (depsOf g n).filter (fun d => decide (d ∉ result ++ [current])) =
          (depsOf g n).filter (fun d => decide (d ∉ result) && decide (d ≠ current)) := by
        apply List.filter_congr
        intro d _
        simp [List.mem_append, not_or]
      rw [hfil]
      omega
    · rw [degOf_decAll_not_mem ds indeg n hnds, h.deg_count n hnK]
      have hfil : (depsOf g n).filter (fun d => decide (d ∉ result ++ [current])) =
          (depsOf g n).filter (fun d => decide (d ∉ result)) := by
        apply List.filter_congr
        intro d hd
        have hdc : d ≠ current := by
          rintro rfl
          exact hnds ((hw.mem_deps_iff hcur hnK).mp hd)
        simp [List.mem_append, hdc]
      rw [hfil]
  · intro x hx
    rcases List.mem_append.mp hx with hx | hx
    · rw [degOf_decAll_not_mem ds indeg x (hrestds x hx)]
      exact h.q_zero x (List.mem_cons_of_mem _ hx)
    · rw [degOf_decAll_mem ds indeg x hdsnd (hnwds x hx)
        (by rw [h.keys_eq]; exact hdsub x (hnwds x hx)), hnwdeg x hx]
      rfl
  · intro n hnK hn1 hn2
    have hnres : n ∉ result := fun hh => hn1 (List.mem_append.mpr (Or.inl hh))
    have hncur : n ≠ current := by
      rintro rfl
      exact hn1 (List.mem_append.mpr (Or.inr (List.mem_singleton.mpr rfl)))
    have hnrest : n ∉ rest := fun hh => hn2 (List.mem_append.mpr (Or.inl hh))
    have hnnw : n ∉ nw := fun hh => hn2 (List.mem_append.mpr (Or.inr hh))
    by_cases hnds : n ∈ ds
    · rw [degOf_decAll_mem ds indeg n hdsnd hnds (by rw [h.keys_eq]; exact hnK)]
      intro hzero
      have hone : degOf indeg n = 1 := by omega
      exact hnnw (List.mem_filter.mpr ⟨hnds, by simpa using hone⟩)
    · rw [degOf_decAll_not_mem ds indeg n hnds]
      refine h.nonzero n hnK hnres ?_
      intro hq
      rcases List.mem_cons.mp hq with hh | hh
      · exact hncur hh
      · exact hnrest hh
  · intro n hn d hd
    rcases List.mem_append.mp hn with hn | hn
    · have hold := h.before_deps n hn d hd
      refine ⟨List.mem_append.mpr (Or.inl hold.1), ?_⟩
      rw [List.indexOf_append_of_mem hold.1, List.indexOf_append_of_mem hn]
      exact hold.2
    · rw [List.mem_singleton.mp hn] at hd ⊢
      have hdres : d ∈ result := hdepsdone d hd
      refine ⟨List.mem_append.mpr (Or.inl hdres), ?_⟩
      rw [List.indexOf_append_of_mem hdres, indexOf_concat_self result current hcurres]
      exact List.indexOf_lt_length.mpr hdres

theorem kahnLoop_spec (g : TaskDependencyDAG) (hw : WF g) :
    ∀ (fuel : Nat) (queue : List String) (indeg : List (String × Int))
      (result : List String), KahnInv g queue indeg result →
      KahnInv g (kahnLoop g fuel queue indeg result).2.1
        (kahnLoop g fuel queue indeg result).2.2
        (kahnLoop g fuel queue indeg result).1 ∧
      ((nodeNames g).length < fuel + result.length →
        (kahnLoop g fuel queue indeg result).2.1 = []) := by
  intro fuel
  induction fuel with
  | zero =>
    intro queue indeg result h
    refine ⟨h, ?_⟩
    intro hlen
    have hle : result.length ≤ (nodeNames g).length :=
      (h.res_nodup.subperm (fun x hx => h.res_sub x hx)).length_le
    omega
  | succ f ih =>
    intro queue indeg result h
    cases queue with
    | nil => exact ⟨h, fun _ => rfl⟩
    | cons current rest =>
      have hstep := kahnInv_step g hw current rest indeg result h
      have hrec := ih _ _ _ hstep
      refine ⟨hrec.1, ?_⟩
      intro hlen
      apply hrec.2
      rw [List.length_append, List.length_singleton]
      omega

/-- Shared core of the two `topological_sort` theorems: for every
well-formed graph the returned list is a permutation of the node names. -/
theorem topoSort_perm_aux (g : TaskDependencyDAG) (hw : WF g) :
    (g.topological_sort).Perm (nodeNames g) := by
  by_cases hne : g.nodes = []
  · unfold TaskDependencyDAG.topological_sort
    rw [if_pos hne, show nodeNames g = [] from by rw [nodeNames, hne]; rfl]
  · have hinit := kahnInv_init g hw
    have hloop := kahnLoop_spec g hw (g.nodes.length + 1) _ _ _ hinit
    have hInv := hloop.1
    have hLnd := hInv.res_nodup
    have hLsub := hInv.res_sub
    unfold TaskDependencyDAG.topological_sort
    rw [if_neg hne]
    dsimp only
    set L := (kahnLoop g (g.nodes.length + 1)
      (((initInDegrees g).filter (fun p => decide (p.2 = 0))).map Prod.fst)
      (initInDegrees g) []).1 with hL
    by_cases hlen : L.length ≠ g.nodes.length
    · rw [if_pos hlen]
      refine (List.perm_ext_iff_of_nodup ?_ hw.names_nodup).mpr ?_
      · refine List.nodup_append.mpr ⟨hLnd, hw.names_nodup.filter _, ?_⟩
        intro x hx hx2
        have hxf := List.mem_filter.mp hx2
        exact (by simpa using hxf.2 : x ∉ L) hx
      · intro a
        constructor
        · intro ha2
          rcases List.mem_append.mp ha2 with ha2 | ha2
          · exact hLsub a ha2
          · exact (List.mem_filter.mp ha2).1
        · intro ha2
          by_cases haL : a ∈ L
          · exact List.mem_append.mpr (Or.inl haL)
          · exact List.mem_append.mpr
              (Or.inr (List.mem_filter.mpr ⟨ha2, by simpa using haL⟩))
    · rw [if_neg hlen]
      push_neg at hlen
      have hsp := hLnd.subperm (fun x hx => hLsub x hx)
      refine hsp.perm_of_length_le ?_
      have : (nodeNames g).length = g.nodes.length := by
        rw [nodeNames, List.length_map]
      omega

/-- C9: `topological_sort` never fails: for every well-formed graph —
cyclic ones included — the returned list is a permutation of the graph's
node names, i.e. it contains every node exactly once (unvisited cyclic
nodes are appended after the Kahn phase). -/
theorem topological_sort_total_perm (g : TaskDependencyDAG) (hw : WF g) :
    (g.topological_sort).Perm (nodeNames g) :=
  topoSort_perm_aux g hw

/-- C9 witness: on the two-node cycle the Kahn phase visits nothing and
both nodes are appended; the result is still a permutation of the nodes. -/
theorem topological_sort_total_perm_witness :
    (gCycle.topological_sort).Perm (nodeNames gCycle) :=
  topological_sort_total_perm gCycle (by unfold WF; decide)

/-- C4: on every well-formed acyclic graph, `topological_sort` returns a
list containing every node exactly once in which every dependency of a
node appears strictly before that node. -/
theorem topological_sort_acyclic_correct (g : TaskDependencyDAG) (hw : WF g)
    (ha : Acyclic g) :
    (g.topological_sort).Perm (nodeNames g) ∧
    ∀ n ∈ nodeNames g, ∀ d ∈ depsOf g n,
      (g.topological_sort).indexOf d < (g.topological_sort).indexOf n := by
  by_cases hne : g.nodes = []
  · refine ⟨topoSort_perm_aux g hw, ?_⟩
    intro n hn
    rw [show nodeNames g = [] from by rw [nodeNames, hne]; rfl] at hn
    cases hn
  · have hinit := kahnInv_init g hw
    have hloop := kahnLoop_spec g hw (g.nodes.length + 1) _ _ _ hinit
    have hInv := hloop.1
    have hLnd := hInv.res_nodup
    have hLsub := hInv.res_sub
    have hKlen : (nodeNames g).length = g.nodes.length := by
      rw [nodeNames, List.length_map]
    have hq : (kahnLoop g (g.nodes.length + 1)
        (((initInDegrees g).filter (fun p => decide (p.2 = 0))).map Prod.fst)
        (initInDegrees g) []).2.1 = [] := by
      apply hloop.2
      simp only [List.length_nil]
      omega
    set L := (kahnLoop g (g.nodes.length + 1)
      (((initInDegrees g).filter (fun p => decide (p.2 = 0))).map Prod.fst)
      (initInDegrees g) []).1 with hL
    have hcomplete : ∀ n ∈ nodeNames g, n ∈ L := by
      by_contra hnc
      push_neg at hnc
      obtain ⟨n0, hn0K, hn0L⟩ := hnc
      obtain ⟨m, hm, hmin⟩ := ha.has_min {x | x ∈ nodeNames g ∧ x ∉ L}
        ⟨n0, hn0K, hn0L⟩
      have hnz := hInv.nonzero m hm.1 hm.2 (by rw [hq]; intro hh; cases hh)
      have hc := hInv.deg_count m hm.1
      rw [hc] at hnz
      have hlenne : ((depsOf g m).filter (fun d => decide (d ∉ L))).length ≠ 0 := by
        intro hh
        apply hnz
        exact_mod_cast hh
      have hne2 : (depsOf g m).filter (fun d => decide (d ∉ L)) ≠ [] := by
        intro hh
        rw [hh] at hlenne
        exact hlenne rfl
      obtain ⟨d, hd⟩ := List.exists_mem_of_ne_nil _ hne2
      have hd2 := List.mem_filter.mp hd
      have hdK := hw.deps_sub hm.1 d hd2.1
      have hdL : d ∉ L := by simpa using hd2.2
      exact hmin d ⟨hdK, hdL⟩ hd2.1
    have hLperm : L.Perm (nodeNames g) :=
      (List.perm_ext_iff_of_nodup hLnd hw.names_nodup).mpr
        (fun a => ⟨fun ha2 => hLsub a ha2, fun ha2 => hcomplete a ha2⟩)
    have hLlen : L.length = g.nodes.length := by
      rw [hLperm.length_eq]
      exact hKlen
    have hsort : g.topological_sort = L := by
      unfold TaskDependencyDAG.topological_sort
      rw [if_neg hne]
      dsimp only
      rw [← hL, if_neg (by omega : ¬ L.length ≠ g.nodes.length)]
    rw [hsort]
    refine ⟨hLperm, ?_⟩
    intro n hn d hd
    exact (hInv.before_deps n (hcomplete n hn) d hd).2

/-- The two-node chain has no cycle: its dependency relation is
well-founded. -/
theorem gChain_acyclic : Acyclic gChain := by
  have hdeps : ∀ x, depsOf gChain x =
      if "a" = x then [] else if "b" = x then ["a"] else [] := by
    intro x
    by_cases hax : "a" = x
    · rw [if_pos hax]
      simp [depsOf, gChain, alookup_cons, hax]
    · rw [if_neg hax]
      by_cases hbx : "b" = x
      · rw [if_pos hbx]
        simp [depsOf, gChain, alookup_cons, hax, hbx]
      · rw [if_neg hbx]
        simp [depsOf, gChain, alookup_cons, hax, hbx, alookup]
  have accA : Acc (depRel gChain) "a" := by
    constructor
    intro y hy
    have hy2 : y ∈ depsOf gChain "a" := hy
    rw [hdeps] at hy2
    simp at hy2
  constructor
  intro x
  constructor
  intro y hy
  have hy2 : y ∈ depsOf gChain x := hy
  rw [hdeps] at hy2
  by_cases hax : "a" = x
  · rw [if_pos hax] at hy2
    cases hy2
  · rw [if_neg hax] at hy2
    by_cases hbx : "b" = x
    · rw [if_pos hbx] at hy2
      rw [List.mem_singleton.mp hy2]
      exact accA
    · rw [if_neg hbx] at hy2
      cases hy2

/-- C4 witness: the concrete acyclic chain `a before b`. -/
theorem topological_sort_acyclic_correct_witness :
    (gChain.topological_sort).Perm (nodeNames gChain) :=
  (topological_sort_acyclic_correct gChain (by unfold WF; decide) gChain_acyclic).1

/-! ### WF is the reachable-state invariant: preservation lemmas -/

theorem mem_setAdd (xs : List String) (v x : String) :
    x ∈ setAdd xs v ↔ x ∈ xs ∨ x = v := by
  unfold setAdd
  by_cases h : v ∈ xs
  · rw [if_pos h]
    constructor
    · exact Or.inl
    · rintro (hh | rfl)
      · exact hh
      · exact h
  · rw [if_neg h]
    simp [List.mem_append]

theorem setAdd_nodup {xs : List String} (h : xs.Nodup) (v : String) :
    (setAdd xs v).Nodup := by
  unfold setAdd
  by_cases hv : v ∈ xs
  · rw [if_pos hv]; exact h
  · rw [if_neg hv]
    exact List.nodup_append.mpr ⟨h, List.nodup_singleton v,
      fun x hx hx2 => hv ((List.mem_singleton.mp hx2) ▸ hx)⟩

theorem alookup_append_singleton (l : List (String × β)) (n k : String) (v : β) :
    alookup k (l ++ [(n, v)]) =
      match alookup k l with
      | some w => some w
      | none => if n = k then some v else none := by
  induction l with
  | nil => rfl
  | cons p xs ih =>
    obtain ⟨c, d⟩ := p
    by_cases hc : c = k
    · simp [alookup_cons, hc]
    · simp only [List.cons_append, alookup_cons, if_neg hc]
      exact ih

theorem depsOf_add_task (g : TaskDependencyDAG) (n k : String) :
    depsOf (g.add_task n) k = depsOf g k := by
  unfold TaskDependencyDAG.add_task
  by_cases hs : (alookup n g.nodes).isSome
  · rw [if_pos hs]
  · rw [if_neg hs]
    unfold depsOf
    rw [show alookup k (g.nodes ++ [(n, ⟨n, [], []⟩)]) = _ from
      alookup_append_singleton g.nodes n k ⟨n, [], []⟩]
    rcases ho : alookup k g.nodes with _ | nd
    · by_cases hn : n = k <;> simp [hn]
    · rfl

theorem dptsOf_add_task (g : TaskDependencyDAG) (n k : String) :
    dptsOf (g.add_task n) k = dptsOf g k := by
  unfold TaskDependencyDAG.add_task
  by_cases hs : (alookup n g.nodes).isSome
  · rw [if_pos hs]
  · rw [if_neg hs]
    unfold dptsOf
    rw [show alookup k (g.nodes ++ [(n, ⟨n, [], []⟩)]) = _ from
      alookup_append_singleton g.nodes n k ⟨n, [], []⟩]
    rcases ho : alookup k g.nodes with _ | nd
    · by_cases hn : n = k <;> simp [hn]
    · rfl

theorem nodeNames_add_task (g : TaskDependencyDAG) (n : String) :
    nodeNames (g.add_task n) =
      if n ∈ nodeNames g then nodeNames g else nodeNames g ++ [n] := by
  unfold TaskDependencyDAG.add_task
  by_cases hs : (alookup n g.nodes).isSome
  · rw [if_pos hs,
      if_pos (show n ∈ nodeNames g from (alookup_isSome_iff _ _).mp hs)]
  · rw [if_neg hs, if_neg (show ¬ n ∈ nodeNames g from
      fun hh => hs ((alookup_isSome_iff _ _).mpr hh))]
    unfold nodeNames
    rw [List.map_append]
    rfl

theorem mem_nodeNames_add_task (g : TaskDependencyDAG) (n : String) :
    n ∈ nodeNames (g.add_task n) := by
  rw [nodeNames_add_task]
  by_cases h : n ∈ nodeNames g
  · rw [if_pos h]; exact h
  · rw [if_neg h]
    exact List.mem_append.mpr (Or.inr (List.mem_singleton.mpr rfl))

theorem mem_nodeNames_add_task_of_mem (g : TaskDependencyDAG) {x : String}
    (n : String) (h : x ∈ nodeNames g) : x ∈ nodeNames (g.add_task n) := by
  rw [nodeNames_add_task]
  by_cases hn : n ∈ nodeNames g
  · rw [if_pos hn]; exact h
  · rw [if_neg hn]
    exact List.mem_append.mpr (Or.inl h)

/-- The empty graph (a fresh `TaskDependencyDAG`) is well-formed. -/
theorem WF_empty : WF ⟨[]⟩ := by
  unfold WF
  decide

/-- `add_task` preserves well-formedness. -/
theorem WF.add_task {g : TaskDependencyDAG} (hw : WF g) (n : String) :
    WF (g.add_task n) := by
  unfold TaskDependencyDAG.add_task
  by_cases hs : (alookup n g.nodes).isSome
  · rw [if_pos hs]; exact hw
  · rw [if_neg hs]
    have hn : n ∉ nodeNames g := fun hh => hs ((alookup_isSome_iff _ _).mpr hh)
    obtain ⟨h1, h2, h3, h4, h5⟩ := hw
    have hnames : nodeNames (⟨g.nodes ++ [(n, ⟨n, [], []⟩)]⟩ : TaskDependencyDAG) =
        nodeNames g ++ [n] := by
      unfold nodeNames
      rw [List.map_append]
      rfl
    refine ⟨?_, ?_, ?_, ?_, ?_⟩
    · rw [hnames]
      exact List.nodup_append.mpr ⟨h1, List.nodup_singleton n,
        fun x hx hx2 => hn ((List.mem_singleton.mp hx2) ▸ hx)⟩
    · intro p hp
      rcases List.mem_append.mp hp with hp | hp
      · exact h2 p hp
      · rw [List.mem_singleton.mp hp]
    · intro p hp
      rcases List.mem_append.mp hp with hp | hp
      · exact h3 p hp
      · rw [List.mem_singleton.mp hp]
        exact ⟨List.nodup_nil, List.nodup_nil⟩
    · intro p hp
      rcases List.mem_append.mp hp with hp | hp
      · refine ⟨fun d hd => ?_, fun d hd => ?_⟩
        · rw [hnames]
          exact List.mem_append.mpr (Or.inl ((h4 p hp).1 d hd))
        · rw [hnames]
          exact List.mem_append.mpr (Or.inl ((h4 p hp).2 d hd))
      · rw [List.mem_singleton.mp hp]
        exact ⟨fun d hd => absurd hd (List.not_mem_nil d),
          fun d hd => absurd hd (List.not_mem_nil d)⟩
    · intro pa hpa pb hpb
      rcases List.mem_append.mp hpa with hpa | hpa
      · rcases List.mem_append.mp hpb with hpb | hpb
        · exact h5 pa hpa pb hpb
        · rw [List.mem_singleton.mp hpb]
          constructor
          · intro hh
            exact absurd hh (List.not_mem_nil _)
          · intro hh
            exact absurd ((h4 pa hpa).2 n hh) hn
      · rw [List.mem_singleton.mp hpa]
        rcases List.mem_append.mp hpb with hpb | hpb
        · constructor
          · intro hh
            exact absurd ((h4 pb hpb).1 n hh) hn
          · intro hh
            exact absurd hh (List.not_mem_nil _)
        · rw [List.mem_singleton.mp hpb]

theorem alookup_updateNode (g : TaskDependencyDAG) (n : String)
    (f : DAGNode → DAGNode) (k : String) :
    alookup k (updateNode g n f).nodes =
      if k = n then (alookup n g.nodes).map f else alookup k g.nodes := by
  rcases g with ⟨l⟩
  show alookup k (l.map fun p => if p.1 = n then (p.1, f p.2) else p) = _
  induction l with
  | nil =>
    show (none : Option DAGNode) = if k = n then Option.map f none else none
    by_cases h : k = n
    · rw [if_pos h]
      rfl
    · rw [if_neg h]
  | cons p xs ih =>
    obtain ⟨c, d⟩ := p
    show alookup k ((if c = n then (c, f d) else (c, d)) :: _) = _
    by_cases hc : c = n
    · rw [if_pos hc, alookup_cons]
      by_cases hck : c = k
      · rw [if_pos hck]
        have hkn : k = n := by rw [← hck, hc]
        rw [if_pos hkn]
        show some (f d) = (alookup n ((c, d) :: xs)).map f
        rw [alookup_cons, if_pos hc]
        rfl
      · rw [if_neg hck, ih]
        by_cases hkn : k = n
        · exact absurd (by rw [hc, ← hkn] : c = k) hck
        · rw [if_neg hkn, if_neg hkn]
          show alookup k xs = alookup k ((c, d) :: xs)
          rw [alookup_cons, if_neg hck]
    · rw [if_neg hc, alookup_cons]
      by_cases hck : c = k
      · rw [if_pos hck]
        by_cases hkn : k = n
        · exact absurd (by rw [hck, hkn] : c = n) hc
        · rw [if_neg hkn]
          show some d = alookup k ((c, d) :: xs)
          rw [alookup_cons, if_pos hck]
      · rw [if_neg hck, ih]
        by_cases hkn : k = n
        · rw [if_pos hkn, if_pos hkn]
          show (alookup n xs).map f = (alookup n ((c, d) :: xs)).map f
          rw [alookup_cons, if_neg hc]
        · rw [if_neg hkn, if_neg hkn]
          show alookup k xs = alookup k ((c, d) :: xs)
          rw [alookup_cons, if_neg hck]

theorem nodeNames_updateNode (g : TaskDependencyDAG) (n : String)
    (f : DAGNode → DAGNode) : nodeNames (updateNode g n f) = nodeNames g := by
  unfold updateNode nodeNames
  rw [List.map_map]
  apply List.map_congr_left
  intro p _
  by_cases h : p.1 = n <;> simp [h]

/-- Build `WF` from lookup-level facts (usable because the key list is
duplicate-free, so entry membership and `alookup` agree). -/
theorem WF_of_lookup (g : TaskDependencyDAG)
    (h1 : (nodeNames g).Nodup)
    (h2 : ∀ n ∈ nodeNames g, ∀ nd, alookup n g.nodes = some nd → nd.task_name = n)
    (h3 : ∀ n ∈ nodeNames g, (depsOf g n).Nodup ∧ (dptsOf g n).Nodup)
    (h4 : ∀ n ∈ nodeNames g, (∀ d ∈ depsOf g n, d ∈ nodeNames g) ∧
      (∀ d ∈ dptsOf g n, d ∈ nodeNames g))
    (h5 : ∀ a ∈ nodeNames g, ∀ b ∈ nodeNames g,
      (a ∈ depsOf g b ↔ b ∈ dptsOf g a)) :
    WF g := by
  have hmemkey : ∀ p : String × DAGNode, p ∈ g.nodes → p.1 ∈ nodeNames g :=
    fun p hp => List.mem_map.mpr ⟨p, hp, rfl⟩
  have hlook : ∀ p : String × DAGNode, p ∈ g.nodes → alookup p.1 g.nodes = some p.2 :=
    fun p hp => mem_alookup h1 hp
  refine ⟨h1, ?_, ?_, ?_, ?_⟩
  · intro p hp
    exact h2 p.1 (hmemkey p hp) p.2 (hlook p hp)
  · intro p hp
    have hd := depsOf_eq_of_alookup (hlook p hp)
    have hd2 := dptsOf_eq_of_alookup (hlook p hp)
    rw [← hd, ← hd2]
    exact h3 p.1 (hmemkey p hp)
  · intro p hp
    have hd := depsOf_eq_of_alookup (hlook p hp)
    have hd2 := dptsOf_eq_of_alookup (hlook p hp)
    rw [← hd, ← hd2]
    exact h4 p.1 (hmemkey p hp)
  · intro pa hpa pb hpb
    rw [← depsOf_eq_of_alookup (hlook pb hpb), ← dptsOf_eq_of_alookup (hlook pa hpa)]
    exact h5 pa.1 (hmemkey pa hpa) pb.1 (hmemkey pb hpb)

theorem depsOf_eq_none {g : TaskDependencyDAG} {k : String}
    (h : alookup k g.nodes = none) : depsOf g k = [] := by
  unfold depsOf
  rw [h]

theorem dptsOf_eq_none {g : TaskDependencyDAG} {k : String}
    (h : alookup k g.nodes = none) : dptsOf g k = [] := by
  unfold dptsOf
  rw [h]

/-- `add_dependency` preserves well-formedness. -/
theorem WF.add_dependency {g : TaskDependencyDAG} (hw : WF g) (a b : String) :
    WF (g.add_dependency a b) := by
  have hw1 : WF ((g.add_task a).add_task b) := (hw.add_task a).add_task b
  have ha1 : a ∈ nodeNames ((g.add_task a).add_task b) :=
    mem_nodeNames_add_task_of_mem _ b (mem_nodeNames_add_task g a)
  have hb1 : b ∈ nodeNames ((g.add_task a).add_task b) :=
    mem_nodeNames_add_task _ b
  set g1 := (g.add_task a).add_task b with hg1
  obtain ⟨nda, hnda, hma⟩ := exists_alookup_of_mem_names ha1
  obtain ⟨ndb, hndb, hmb⟩ := exists_alookup_of_mem_names hb1
  have hta : nda.task_name = a := hw1.2.1 (a, nda) hma
  have htb : ndb.task_name = b := hw1.2.1 (b, ndb) hmb
  have hgd : g.add_dependency a b =
      updateNode (updateNode g1 a
        (fun nd => ⟨nd.task_name, setAdd nd.dependencies b, nd.dependents⟩)) b
        (fun nd => ⟨nd.task_name, nd.dependencies, setAdd nd.dependents a⟩) := rfl
  have hnames : nodeNames (g.add_dependency a b) = nodeNames g1 := by
    rw [hgd, nodeNames_updateNode, nodeNames_updateNode]
  have hlook3 : ∀ k, alookup k (g.add_dependency a b).nodes =
      ((if k = a then (alookup a g1.nodes).map
          (fun nd => ⟨nd.task_name, setAdd nd.dependencies b, nd.dependents⟩)
        else alookup k g1.nodes).map
          (fun nd => if k = b then (⟨nd.task_name, nd.dependencies,
            setAdd nd.dependents a⟩ : DAGNode) else nd)) := by
    intro k
    rw [hgd]
    simp only [alookup_updateNode]
    by_cases hkb : k = b
    · rw [if_pos hkb]
      by_cases hka : k = a
      · have hba : b = a := by rw [← hkb, hka]
        rw [if_pos hba, if_pos hka]
        rcases alookup a g1.nodes with _ | nd
        · rfl
        · simp [hkb]
      · have hba : ¬ b = a := fun hh => hka (by rw [hkb, hh])
        rw [if_neg hba, if_neg hka, hkb]
        rcases alookup b g1.nodes with _ | nd
        · rfl
        · simp [hkb]
    · rw [if_neg hkb]
      by_cases hka : k = a
      · rw [if_pos hka]
        rcases alookup a g1.nodes with _ | nd
        · rfl
        · simp [hkb]
      · rw [if_neg hka]
        rcases alookup k g1.nodes with _ | nd
        · rfl
        · simp [hkb]
  have hdeps3 : ∀ k, depsOf (g.add_dependency a b) k =
      if k = a then setAdd (depsOf g1 a) b else depsOf g1 k := by
    intro k
    by_cases hka : k = a
    · rw [if_pos hka]
      by_cases hkb : k = b
      · have hlk : alookup k (g.add_dependency a b).nodes =
            some ⟨nda.task_name, setAdd nda.dependencies b, setAdd nda.dependents a⟩ := by
          rw [hlook3 k, if_pos hka, hnda]
          simp [hkb]
        rw [depsOf_eq_of_alookup hlk, depsOf_eq_of_alookup hnda]
      · have hlk : alookup k (g.add_dependency a b).nodes =
            some ⟨nda.task_name, setAdd nda.dependencies b, nda.dependents⟩ := by
          rw [hlook3 k, if_pos hka, hnda]
          simp [hkb]
        rw [depsOf_eq_of_alookup hlk, depsOf_eq_of_alookup hnda]
    · rw [if_neg hka]
      by_cases hkb : k = b
      · have hlk : alookup k (g.add_dependency a b).nodes =
            some ⟨ndb.task_name, ndb.dependencies, setAdd ndb.dependents a⟩ := by
          rw [hlook3 k, if_neg hka, hkb, hndb]
          simp
        rw [depsOf_eq_of_alookup hlk, hkb, depsOf_eq_of_alookup hndb]
      · rcases ho : alookup k g1.nodes with _ | nd
        · have hlk : alookup k (g.add_dependency a b).nodes = none := by
            rw [hlook3 k, if_neg hka, ho]
            rfl
          rw [depsOf_eq_none hlk, depsOf_eq_none ho]
        · have hlk : alookup k (g.add_dependency a b).nodes = some nd := by
            rw [hlook3 k, if_neg hka, ho]
            simp [hkb]
          rw [depsOf_eq_of_alookup hlk, depsOf_eq_of_alookup ho]
  have hdpts3 : ∀ k, dptsOf (g.add_dependency a b) k =
      if k = b then setAdd (dptsOf g1 b) a else dptsOf g1 k := by
    intro k
    by_cases hkb : k = b
    · rw [if_pos hkb]
      by_cases hka : k = a
      · have hlk : alookup k (g.add_dependency a b).nodes =
            some ⟨nda.task_name, setAdd nda.dependencies b, setAdd nda.dependents a⟩ := by
          rw [hlook3 k, if_pos hka, hnda]
          simp [hkb]
        rw [dptsOf_eq_of_alookup hlk]
        have hba : b = a := by rw [← hkb, hka]
        have hnn : ndb = nda := by
          have hss : some ndb = some nda := by rw [← hndb, ← hnda, hba]
          exact Option.some_inj.mp hss
        rw [dptsOf_eq_of_alookup hndb, hnn]
      · have hlk : alookup k (g.add_dependency a b).nodes =
            some ⟨ndb.task_name, ndb.dependencies, setAdd ndb.dependents a⟩ := by
          rw [hlook3 k, if_neg hka, hkb, hndb]
          simp
        rw [dptsOf_eq_of_alookup hlk, dptsOf_eq_of_alookup hndb]
    · rw [if_neg hkb]
      by_cases hka : k = a
      · have hlk : alookup k (g.add_dependency a b).nodes =
            some ⟨nda.task_name, setAdd nda.dependencies b, nda.dependents⟩ := by
          rw [hlook3 k, if_pos hka, hnda]
          simp [hkb]
        rw [dptsOf_eq_of_alookup hlk, hka, dptsOf_eq_of_alookup hnda]
      · rcases ho : alookup k g1.nodes with _ | nd
        · have hlk : alookup k (g.add_dependency a b).nodes = none := by
            rw [hlook3 k, if_neg hka, ho]
            rfl
          rw [dptsOf_eq_none hlk, dptsOf_eq_none ho]
        · have hlk : alookup k (g.add_dependency a b).nodes = some nd := by
            rw [hlook3 k, if_neg hka, ho]
            simp [hkb]
          rw [dptsOf_eq_of_alookup hlk, dptsOf_eq_of_alookup ho]
  apply WF_of_lookup
  · rw [hnames]
    exact hw1.names_nodup
  · intro n hn nd hnd
    rw [hnames] at hn
    rw [hlook3 n] at hnd
    by_cases hka : n = a
    · rw [if_pos hka, hnda] at hnd
      by_cases hkb : n = b
      · simp only [Option.map_some', Option.some.injEq, if_pos hkb] at hnd
        subst hnd
        show nda.task_name = n
        rw [hta, hka]
      · simp only [Option.map_some', Option.some.injEq, if_neg hkb] at hnd
        subst hnd
        show nda.task_name = n
        rw [hta, hka]
    · rw [if_neg hka] at hnd
      obtain ⟨nd1, hnd1, hm1⟩ := exists_alookup_of_mem_names hn
      rw [hnd1] at hnd
      have ht1 : nd1.task_name = n := hw1.2.1 (n, nd1) hm1
      by_cases hkb : n = b
      · simp only [Option.map_some', Option.some.injEq, if_pos hkb] at hnd
        subst hnd
        show nd1.task_name = n
        exact ht1
      · simp only [Option.map_some', Option.some.injEq, if_neg hkb] at hnd
        subst hnd
        exact ht1
  · intro n hn
    rw [hnames] at hn
    rw [hdeps3 n, hdpts3 n]
    constructor
    · by_cases hka : n = a
      · rw [if_pos hka]
        exact setAdd_nodup (hw1.deps_nodup ha1) b
      · rw [if_neg hka]
        exact hw1.deps_nodup hn
    · by_cases hkb : n = b
      · rw [if_pos hkb]
        exact setAdd_nodup (hw1.dpts_nodup hb1) a
      · rw [if_neg hkb]
        exact hw1.dpts_nodup hn
  · intro n hn
    rw [hnames] at hn
    rw [hdeps3 n, hdpts3 n, hnames]
    constructor
    · intro d hd
      by_cases hka : n = a
      · rw [if_pos hka] at hd
        rcases (mem_setAdd _ _ _).mp hd with hd2 | rfl
        · exact hw1.deps_sub ha1 d hd2
        · exact hb1
      · rw [if_neg hka] at hd
        exact hw1.deps_sub hn d hd
    · intro d hd
      by_cases hkb : n = b
      · rw [if_pos hkb] at hd
        rcases (mem_setAdd _ _ _).mp hd with hd2 | rfl
        · exact hw1.dpts_sub hb1 d hd2
        · exact ha1
      · rw [if_neg hkb] at hd
        exact hw1.dpts_sub hn d hd
  · intro x hx y hy
    rw [hnames] at hx hy
    rw [hdeps3 y, hdpts3 x]
    by_cases hya : y = a
    · by_cases hxb : x = b
      · rw [if_pos hya, if_pos hxb]
        constructor
        · intro _
          exact (mem_setAdd _ _ _).mpr (Or.inr hya)
        · intro _
          exact (mem_setAdd _ _ _).mpr (Or.inr hxb)
      · rw [if_pos hya, if_neg hxb, hya]
        constructor
        · intro hh
          rcases (mem_setAdd _ _ _).mp hh with hh2 | rfl
          · exact (hw1.mem_deps_iff hx ha1).mp hh2
          · exact absurd rfl hxb
        · intro hh
          exact (mem_setAdd _ _ _).mpr (Or.inl ((hw1.mem_deps_iff hx ha1).mpr hh))
    · by_cases hxb : x = b
      · rw [if_neg hya, if_pos hxb, hxb]
        constructor
        · intro hh
          exact (mem_setAdd _ _ _).mpr (Or.inl ((hw1.mem_deps_iff hb1 hy).mp hh))
        · intro hh
          rcases (mem_setAdd _ _ _).mp hh with hh2 | rfl
          · exact (hw1.mem_deps_iff hb1 hy).mpr hh2
          · exact absurd rfl hya
      · rw [if_neg hya, if_neg hxb]
        exact hw1.mem_deps_iff hx hy

/-- Registry-level corollary: `register_task` keeps the execution plan
well-formed. -/
theorem WF_register_task {reg : TaskRegistry} (hw : WF reg.execution_plan)
    (t : Task) : WF (register_task reg t).execution_plan :=
  hw.add_task t.name

/-- Registry-level corollary: `add_runtime_dependency` keeps the execution
plan well-formed, whether the edge is committed or rejected — so the `WF`
hypothesis of the `topological_sort` theorems holds of every graph the
registry can ever hold. -/
theorem WF_add_runtime_dependency {reg : TaskRegistry} (hw : WF reg.execution_plan)
    (caller_task callee_task : String) (ci : Task) :
    WF (add_runtime_dependency reg caller_task callee_task ci).1.execution_plan := by
  have hw1 : WF (reg.execution_plan.add_task caller_task) := hw.add_task _
  have hw2 : WF (if (alookup callee_task reg.tasks).isSome
      then (reg.execution_plan.add_task caller_task).add_task callee_task
      else reg.execution_plan.add_task caller_task) := by
    by_cases hc : (alookup callee_task reg.tasks).isSome
    · rw [if_pos hc]
      exact hw1.add_task _
    · rw [if_neg hc]
      exact hw1
  unfold add_runtime_dependency
  dsimp only
  split
  · exact hw2
  · exact hw2.add_dependency _ _

end Latch
